import Mathlib

/-!
# WGUPS Routing Program — formal model

A shallow embedding of the WGUPS delivery-routing program (`main.py`) and
proofs of its specified properties.

Modelling conventions:
* Simulated clock values (`datetime.timedelta` in the source) are rationals
  counting minutes since midnight; distances (miles) are rationals.  The
  source computes scores in binary floating point; the model uses exact
  rational arithmetic with the same formulas and literals.
* CSV-derived tables (the address table and the distance matrix) are
  parameters: the address table is a list of string rows exactly as
  `csv.reader` yields them, and the distance matrix is a list of rows of
  cells, where a cell is `some q` when the CSV cell passes `_is_float` and
  `none` when it is empty or non-numeric.
* Matrix coordinates are naturals (the indices of the distance matrix).
* Python string methods (`strip`, `lower`, `split`, `in`, the two regex
  substitutions) are reimplemented on Lean strings character by character.
-/

namespace WGUPS

/-! ## String helpers (`_norm`, `_strip_suite`, Python `in`) -/

/-- Python `needle in hay` on character lists. -/
def substrIn (needle hay : List Char) : Bool :=
  hay.tails.any (fun t => needle.isPrefixOf t)

/-- Python `needle in hay` on strings. -/
def strContains (hay needle : String) : Bool :=
  substrIn needle.toList hay.toList

/-- Python `str.strip()`: drop leading and trailing whitespace. -/
def py_strip (s : String) : String :=
  String.mk (((s.toList.dropWhile Char.isWhitespace).reverse.dropWhile
    Char.isWhitespace).reverse)

/-- Python `str.lower()` (ASCII case mapping). -/
def py_lower (s : String) : String := String.mk (s.toList.map Char.toLower)

/-- Python `str.upper()` (ASCII case mapping). -/
def py_upper (s : String) : String := String.mk (s.toList.map Char.toUpper)

/-- One step of `re.sub(r"\s+", " ", s)`: collapse each maximal whitespace
run to a single space.  The flag records whether the previous character was
part of a whitespace run already emitted. -/
def collapseWSAux : Bool → List Char → List Char
  | _, [] => []
  | prevWS, c :: rest =>
    if c.isWhitespace then
      if prevWS then collapseWSAux true rest
      else ' ' :: collapseWSAux true rest
    else c :: collapseWSAux false rest

/-- `_norm`: strip, lowercase, collapse whitespace runs to single spaces. -/
def _norm (s : String) : String :=
  String.mk (collapseWSAux false (py_lower (py_strip s)).toList)

/-- Python `\w` (ASCII part): letters, digits, underscore. -/
def isWordChar (c : Char) : Bool := c.isAlphanum || c = '_'

/-- The `\b` boundary after a digit: the next character, if any, is not a
word character. -/
def boundaryOK : List Char → Bool
  | [] => true
  | c :: _ => !isWordChar c

/-- `re.sub(r"#\s*\d+\b", "", s)` scanning left to right.  `\d+` is greedy
and backtracking cannot help (a shorter digit run is followed by a digit,
which is a word character), so consuming the maximal digit run is exact. -/
def stripSuiteAux : List Char → List Char
  | [] => []
  | c :: rest =>
    if c = '#' then
      let afterWS := rest.dropWhile Char.isWhitespace
      let digits := afterWS.takeWhile Char.isDigit
      let afterDigits := afterWS.dropWhile Char.isDigit
      if digits ≠ [] ∧ boundaryOK afterDigits then stripSuiteAux afterDigits
      else c :: stripSuiteAux rest
    else c :: stripSuiteAux rest
  termination_by l => l.length
  decreasing_by
    all_goals simp only [List.length_cons]
    all_goals first
      | exact Nat.lt_succ_of_le (Nat.le_trans
          (List.dropWhile_sublist Char.isDigit).length_le
          (List.dropWhile_sublist Char.isWhitespace).length_le)
      | exact Nat.lt_succ_self _

/-- `_strip_suite`: remove suite markers, then strip. -/
def _strip_suite (s : String) : String :=
  py_strip (String.mk (stripSuiteAux s.toList))

/-! ## Constants -/

/-- 09:05, the delayed-availability gate, in minutes since midnight. -/
def DELAYED_TIME : ℚ := 9 * 60 + 5

/-- 10:20, the address-correction gate for package 9, in minutes. -/
def ADDR_FIX_TIME : ℚ := 10 * 60 + 20

/-- Vehicle speed, miles per hour. -/
def TRUCK_SPEED : ℚ := 18

/-- Vehicle capacity. -/
def TRUCK_CAP : Nat := 16

/-- `timedelta(hours = d / TRUCK_SPEED)` expressed in minutes. -/
def travelMinutes (d : ℚ) : ℚ := 60 * (d / TRUCK_SPEED)

/-! ## `parse_deadline` -/

/-- `parse_deadline`: 12-hour deadline text to minutes since midnight;
blank/`EOD`/malformed text gives `none` (the source catches every
exception and returns `None`). -/
def parse_deadline (deadline_str : String) : Option ℚ :=
  let s := py_upper (py_strip deadline_str)
  if s = "" ∨ s = "EOD" then none
  else
    match (s.split Char.isWhitespace).filter (· ≠ "") with
    | [hhmm, ampm] =>
      match hhmm.split (· = ':') with
      | [hh, mm] =>
        match hh.toNat?, mm.toNat? with
        | some h0, some m =>
          let h1 := if ampm = "PM" ∧ h0 ≠ 12 then h0 + 12 else h0
          let h2 := if ampm = "AM" ∧ h1 = 12 then 0 else h1
          some ((h2 : ℚ) * 60 + (m : ℚ))
        | _, _ => none
      | _ => none
    | _ => none

/-! ## Data model -/

/-- Package lifecycle status; `statusText` gives the source's strings. -/
inductive PStatus where
  | atHubAwaitingFix
  | delayedArrival
  | atHub
  | enRoute (truckName : String)
  | delivered
  deriving DecidableEq, Repr

/-- The exact status strings assigned by `Package.statusUpdate`. -/
def statusText : PStatus → String
  | .atHubAwaitingFix => "AT HUB (awaiting 10:20 address correction)"
  | .delayedArrival => "DELAYED — will not arrive at the depot until 09:05 AM"
  | .atHub => "AT HUB"
  | .enRoute t => "EN ROUTE on " ++ t
  | .delivered => "DELIVERED"

/-- The `Package` record. -/
structure Package where
  ID : Nat
  street : String
  city : String
  state : String
  zip : String
  deadline : String
  weight : String
  notes : String
  status : PStatus := .atHub
  departureTime : Option ℚ := none
  deliveryTime : Option ℚ := none
  truck : Option String := none
  _orig_street : String
  _orig_zip : String
  _corr_street : String
  _corr_zip : String
  deriving DecidableEq, Repr

/-- `is_delayed`: the notes mention a flight delay. -/
def is_delayed (p : Package) : Bool :=
  strContains (py_lower p.notes) "delayed on flight"

/-- `Package.statusUpdate`, as the status value it stores into
`self.status` for query time `qtime`. -/
def statusUpdate (p : Package) (qtime : ℚ) : PStatus :=
  if p.ID = 9 ∧ qtime < ADDR_FIX_TIME then .atHubAwaitingFix
  else if is_delayed p ∧ qtime < DELAYED_TIME then .delayedArrival
  else
    match p.departureTime with
    | none => .atHub
    | some dep =>
      if qtime < dep then .atHub
      else
        match p.deliveryTime with
        | none => .enRoute (p.truck.getD "Truck")
        | some del =>
          if qtime < del then .enRoute (p.truck.getD "Truck")
          else .delivered

/-- The full effect of `Package.statusUpdate` on the record: it writes
`self.status` and touches nothing else. -/
def statusApply (p : Package) (q : ℚ) : Package :=
  { p with status := statusUpdate p q }

/-- The `Truck` record. -/
structure Truck where
  name : String
  speed : ℚ
  currentLocation : String
  departTime : ℚ
  time : ℚ
  miles : ℚ
  packages : List Nat
  deriving DecidableEq, Repr

/-- The `Truck.__init__` constructor: clock starts at the departure time,
mileage at zero, cargo copied. -/
def Truck.make (name : String) (speed : ℚ) (loc : String) (departT : ℚ)
    (pkgs : List Nat) : Truck :=
  ⟨name, speed, loc, departT, departT, 0, pkgs⟩

/-! ## Address / distance helpers -/

/-- One scan of `AddressCSV` in `_address_index_for`: skip rows with fewer
than three fields or an unparsable index, return the first index whose
normalized third field satisfies the match. -/
def _scan_rows (rows : List (List String)) (matchF : String → Bool) : Option Nat :=
  rows.findSome? (fun row =>
    if row.length < 3 then none
    else
      match (py_strip (row.getD 0 "")).toNat? with
      | none => none
      | some idx => if matchF (_norm (row.getD 2 "")) then some idx else none)

/-- `_address_index_for`: exact/normalized match first, then substring
match in either direction, else `none`. -/
def _address_index_for (rows : List (List String)) (street : String) : Option Nat :=
  let tgt := _norm street
  let tgt2 := _norm (_strip_suite street)
  match _scan_rows rows (fun s => tgt == s || tgt2 == s) with
  | some idx => some idx
  | none =>
    _scan_rows rows (fun s =>
      strContains s tgt || strContains s tgt2 || strContains tgt s || strContains tgt2 s)

/-- `address_idx`: an unresolvable street falls back to the depot, index 0. -/
def address_idx (rows : List (List String)) (street : String) : Nat :=
  (_address_index_for rows street).getD 0

/-- A distance-matrix cell: `some q` when the CSV cell passes `_is_float`,
`none` when it is empty or non-numeric. -/
abbrev DistMatrix := List (List (Option ℚ))

/-- `dist_between`.  Returns the distance together with a flag that is
`true` exactly when the source increments `_fallback_count`.  A missing or
non-numeric forward cell falls back to the mirrored cell; if both are
unusable, or a coordinate is `None` or out of the matrix range, the fixed
fallback 7.5 is returned and the diagnostic counter is bumped. -/
def dist_between (m : DistMatrix) (idx1 idx2 : Option Nat) : ℚ × Bool :=
  match idx1, idx2 with
  | none, _ => (7.5, true)
  | _, none => (7.5, true)
  | some i, some j =>
    let n := m.length
    if i ≥ n ∨ j ≥ n then (7.5, true)
    else
      match (m.getD i []).getD j none with
      | some q => (q, false)
      | none =>
        match (m.getD j []).getD i none with
        | some q2 => (q2, false)
        | none => (7.5, true)

/-- The distance value used by the router (the counter aside). -/
def dist_val (m : DistMatrix) (idx1 idx2 : Option Nat) : ℚ :=
  (dist_between m idx1 idx2).1

/-! ## Gates, eligibility, display -/

/-- `apply_addr_fix_if_due`: once the routing clock reaches 10:20,
package 9's internal address fields are replaced by the corrected ones. -/
def apply_addr_fix_if_due (p : Package) (now_time : ℚ) : Package :=
  if p.ID = 9 ∧ ADDR_FIX_TIME ≤ now_time then
    if p.street ≠ p._corr_street ∨ p.zip ≠ p._corr_zip then
      { p with street := p._corr_street, zip := p._corr_zip }
    else p
  else p

/-- `eligible_now`: package 9 is gated until 10:20; delay-flagged packages
are gated until 09:05. -/
def eligible_now (p : Package) (now_time : ℚ) : Bool :=
  if p.ID = 9 ∧ now_time < ADDR_FIX_TIME then false
  else if is_delayed p ∧ now_time < DELAYED_TIME then false
  else true

/-- `display_address`: the time-aware address view; package 9 shows its
original address before 10:20 and the corrected one afterwards. -/
def display_address (p : Package) (qtime : ℚ) : String × String × String × String :=
  if p.ID = 9 then
    if qtime < ADDR_FIX_TIME then (p._orig_street, p.city, p.state, p._orig_zip)
    else (p._corr_street, p.city, p.state, p._corr_zip)
  else (p.street, p.city, p.state, p.zip)

/-! ## The chained hash table (`HashTableWChains`) -/

/-- The lists-only chained hash table; keys are the integer package ids
(for which Python `hash` is the identity). -/
structure HashTableWChains (V : Type) where
  table : List (List (Nat × V))
  size : Nat

namespace HashTableWChains

variable {V : Type}

/-- `HashTableWChains(initialcapacity)`. -/
def empty (V : Type) (initialcapacity : Nat) : HashTableWChains V :=
  ⟨List.replicate initialcapacity [], 0⟩

/-- `_bucket`: `hash(key) % len(self.table)`. -/
def _bucket (t : HashTableWChains V) (key : Nat) : Nat :=
  key % t.table.length

/-- The in-bucket update of `insert`: replace the first pair with this key
in place, or append at the end; the flag reports whether a replacement
happened (in which case the source returns early without growing). -/
def chainUpdate : List (Nat × V) → Nat → V → List (Nat × V) × Bool
  | [], key, item => ([(key, item)], false)
  | (k0, v0) :: rest, key, item =>
    if k0 = key then ((key, item) :: rest, true)
    else
      let r := chainUpdate rest key item
      ((k0, v0) :: r.1, r.2)

/-- `insert` without the load-factor check: the replace-or-append core
that `insert` performs before deciding whether to resize, and the exact
effect of one reinsertion inside `_resize` when no nested resize fires. -/
def insertNoGrow (t : HashTableWChains V) (key : Nat) (item : V) :
    HashTableWChains V :=
  let b := t._bucket key
  let r := chainUpdate (t.table.getD b []) key item
  if r.2 then ⟨t.table.set b r.1, t.size⟩
  else ⟨t.table.set b r.1, t.size + 1⟩

mutual

/-- `insert` and `_resize` are mutually recursive in the source: `_resize`
reinserts every entry through `self.insert`, whose load-factor check can
trigger a nested resize (it does, e.g., from an overfull one-bucket table,
which cascades 1 → 2 → 4 buckets).  The model indexes the pair by the
nesting depth: each nested resize at least doubles a positive bucket count
while the reinserted population never grows, so the depth is finite, and
`insert` instantiates the generous bound `entries + 3`, which a cascade
can never exhaust (at depth 0, unreachable, the check is skipped). -/
def insertF (fuel : Nat) (t : HashTableWChains V) (key : Nat) (item : V) :
    HashTableWChains V :=
  match fuel with
  | 0 => insertNoGrow t key item
  | fuel' + 1 =>
    let b := t._bucket key
    let r := chainUpdate (t.table.getD b []) key item
    if r.2 then ⟨t.table.set b r.1, t.size⟩
    else
      let grown : HashTableWChains V := ⟨t.table.set b r.1, t.size + 1⟩
      if grown.size * 4 > grown.table.length * 3 then _resize fuel' grown
      else grown
termination_by (fuel, 0)

/-- `_resize`: double the bucket count and reinsert every entry through
`insert` (at the given remaining nesting depth). -/
def _resize (fuel : Nat) (t : HashTableWChains V) : HashTableWChains V :=
  t.table.flatten.foldl (fun acc kv => insertF fuel acc kv.1 kv.2)
    ⟨List.replicate (t.table.length * 2) [], 0⟩
termination_by (fuel, 1)

end

/-- `insert`: upsert; on growth, resize once the load factor exceeds 3/4. -/
def insert (t : HashTableWChains V) (key : Nat) (item : V) :
    HashTableWChains V :=
  insertF (t.table.flatten.length + 3) t key item

/-- `search`: the first pair with this key in its bucket, else `None`. -/
def search (t : HashTableWChains V) (key : Nat) : Option V :=
  ((t.table.getD (t._bucket key) []).find? (fun kv => kv.1 == key)).map (·.2)

end HashTableWChains

/-! ## Routing engine (`deliver_run`) -/

/-- One entry of the `info` list: `(p, d, arrival, deadline)`. -/
structure Cand where
  p : Package
  d : ℚ
  arr : ℚ
  dl : Option ℚ
  deriving DecidableEq, Repr

/-- A hard-deadline entry of `ontime_hd` / `late_hd`: the deadline is a
value there (the partition filtered out `None`). -/
structure HCand where
  p : Package
  d : ℚ
  arr : ℚ
  dl : ℚ
  deriving DecidableEq, Repr

/-- The `1e18` best-score sentinel. -/
def SENTINEL : ℚ := 1000000000000000000

/-- The on-time composite score: arrival (minutes) plus distance, minus a
0.2 bonus when arrival is at least ten minutes ahead of the deadline, plus
the `ID * 1e-6` tie-break term. -/
def hscore (h : HCand) : ℚ :=
  let target := h.dl - 10
  let early_bonus : ℚ := if h.arr ≤ target then 1 / 5 else 0
  h.arr + h.d - early_bonus + (h.p.ID : ℚ) * (1 / 1000000)

/-- The three-tier partition of `info`, order-preserving. -/
def partition3 : List Cand → List HCand × List HCand × List Cand
  | [] => ([], [], [])
  | c :: rest =>
    let r := partition3 rest
    match c.dl with
    | none => (r.1, r.2.1, c :: r.2.2)
    | some dl =>
      if c.arr ≤ dl then (⟨c.p, c.d, c.arr, dl⟩ :: r.1, r.2.1, r.2.2)
      else (r.1, ⟨c.p, c.d, c.arr, dl⟩ :: r.2.1, r.2.2)

/-- On-time tier selection: strict-improvement fold against the sentinel,
so the first candidate achieving the least score wins. -/
def selOntime (ontime : List HCand) : Option (Package × ℚ) :=
  (ontime.foldl
    (fun acc h => if hscore h < acc.2 then (some (h.p, h.d), hscore h) else acc)
    ((none : Option (Package × ℚ)), SENTINEL)).1

/-- Lateness of a hard-deadline candidate (arrival minus deadline). -/
def lateness (h : HCand) : ℚ := h.arr - h.dl

/-- The strict replacement test of the late tier: smaller lateness, then
shorter distance, then lower id. -/
def lateBetter (cur new : HCand) : Bool :=
  decide (lateness new < lateness cur) ||
    (decide (lateness new = lateness cur) && decide (new.d < cur.d)) ||
    (decide (lateness new = lateness cur) && decide (new.d = cur.d) &&
      decide (new.p.ID < cur.p.ID))

/-- Late tier selection: start from the first entry, replace on strict
improvement. -/
def selLate (late : List HCand) : Option (Package × ℚ) :=
  match late with
  | [] => none
  | h :: t =>
    let best := t.foldl (fun cur new => if lateBetter cur new then new else cur) h
    some (best.p, best.d)

/-- Unconstrained tier selection: nearest neighbour with the `ID * 1e-6`
tie-break, against the sentinel. -/
def selEod (eod : List Cand) : Option (Package × ℚ) :=
  (eod.foldl
    (fun acc c =>
      let score := c.d + (c.p.ID : ℚ) * (1 / 1000000)
      if score < acc.2 then (some (c.p, c.d), score) else acc)
    ((none : Option (Package × ℚ)), SENTINEL)).1

/-- The selection rules of `deliver_run`: on-time beats late beats
unconstrained.  `none` models the source unpacking `None` (a crash), which
requires every candidate score to reach the `1e18` sentinel. -/
def selectFrom (info : List Cand) : Option (Package × ℚ) :=
  let part := partition3 info
  if part.1 ≠ [] then selOntime part.1
  else if part.2.1 ≠ [] then selLate part.2.1
  else selEod part.2.2

/-- The `info` list: distance from the vehicle's current location, the
projected arrival, and the parsed deadline, for each eligible package. -/
def mkInfo (addrRows : List (List String)) (M : DistMatrix) (truck : Truck)
    (elig : List Package) : List Cand :=
  let cur_idx := address_idx addrRows truck.currentLocation
  elig.map (fun p =>
    let d := dist_val M (some cur_idx) (some (address_idx addrRows p.street))
    ⟨p, d, truck.time + travelMinutes d, parse_deadline p.deadline⟩)

/-- How a wave ended.  `stopped` is the graceful `break` (no eligible
candidate and no future gate); `crashed` marks the two spots where the
source would raise (`min` of an empty list, unpacking `None`); `fuelOut`
only reports insufficient fuel for the model's bounded recursion. -/
inductive RunOutcome where
  | completed
  | stopped
  | crashed
  | fuelOut
  deriving DecidableEq, Repr

/-- Result of a wave: final vehicle, delivered records in delivery order,
undelivered onboard records, and how the loop ended. -/
structure RunResult where
  truck : Truck
  delivered : List Package
  leftover : List Package
  outcome : RunOutcome
  deriving DecidableEq, Repr

/-- The loop's per-iteration address-fix pass over the onboard set
(the source mutates each package in place before the eligibility check). -/
def fixedBoard (truck : Truck) (onboard : List Package) : List Package :=
  onboard.map (fun p => apply_addr_fix_if_due p truck.time)

/-- The eligible sublist of the (address-fixed) onboard set. -/
def eligOf (truck : Truck) (onboard : List Package) : List Package :=
  (fixedBoard truck onboard).filter (fun p => eligible_now p truck.time)

/-- The `next_times` list: the future gate thresholds that could unblock
an onboard package. -/
def nextTimes (truck : Truck) (ob2 : List Package) : List ℚ :=
  (if truck.time < DELAYED_TIME ∧ ob2.any (fun p => is_delayed p)
    then [DELAYED_TIME] else []) ++
  (if truck.time < ADDR_FIX_TIME ∧ ob2.any (fun p => p.ID = 9)
    then [ADDR_FIX_TIME] else [])

/-- One iteration of the `while onboard:` loop of `deliver_run`:
either the loop ends (`Sum.inl`, with the final result) or the iteration
produces the next `(truck, onboard, delivered)` state (`Sum.inr`). -/
def deliverStep (addrRows : List (List String)) (M : DistMatrix)
    (truck : Truck) (onboard delivered : List Package) :
    RunResult ⊕ (Truck × List Package × List Package) :=
  match onboard with
  | [] => Sum.inl ⟨truck, delivered, [], .completed⟩
  | _ :: _ =>
    let ob2 := fixedBoard truck onboard
    let elig := eligOf truck onboard
    if elig.isEmpty then
      let next_times := nextTimes truck ob2
      if next_times.isEmpty then Sum.inl ⟨truck, delivered, ob2, .stopped⟩
      else
        match next_times.filter (fun t => truck.time < t) with
        | [] => Sum.inl ⟨truck, delivered, ob2, .crashed⟩
        | t0 :: ts =>
          Sum.inr ({ truck with time := ts.foldl min t0 }, ob2, delivered)
    else
      match selectFrom (mkInfo addrRows M truck elig) with
      | none => Sum.inl ⟨truck, delivered, ob2, .crashed⟩
      | some (sel_p, sel_d) =>
        let t' := truck.time + travelMinutes sel_d
        Sum.inr
          ({ truck with
              miles := truck.miles + sel_d
              time := t'
              currentLocation := sel_p.street
              packages := truck.packages ++ [sel_p.ID] },
            ob2.erase sel_p,
            delivered ++ [{ sel_p with deliveryTime := some t', status := .delivered }])

/-- The `while onboard:` loop of `deliver_run`, fuel-indexed: iterate
`deliverStep` until it ends the wave (or the model's fuel runs out). -/
def deliverLoop (addrRows : List (List String)) (M : DistMatrix) :
    Nat → Truck → List Package → List Package → RunResult
  | 0, truck, onboard, delivered => ⟨truck, delivered, onboard, .fuelOut⟩
  | fuel + 1, truck, onboard, delivered =>
    match deliverStep addrRows M truck onboard delivered with
    | Sum.inl r => r
    | Sum.inr s => deliverLoop addrRows M fuel s.1 s.2.1 s.2.2

/-- The onboard-instantiation prologue of `deliver_run`: look each cargo id
up in the store, attach the vehicle, and stamp the gated departure time on
first carry. -/
def initOnboard (store : Nat → Option Package) (truck : Truck) : List Package :=
  truck.packages.filterMap (fun pid =>
    match store pid with
    | none => none
    | some p0 =>
      let p := { p0 with truck := some truck.name }
      match p.departureTime with
      | some _ => some p
      | none =>
        let g0 := truck.departTime
        let g1 := if is_delayed p ∧ g0 < DELAYED_TIME then DELAYED_TIME else g0
        let g2 := if p.ID = 9 ∧ g1 < ADDR_FIX_TIME then ADDR_FIX_TIME else g1
        some { p with departureTime := some g2 })

/-- `deliver_run`: instantiate the onboard set, clear the cargo list, and
run the routing loop with the given fuel. -/
def deliver_run (addrRows : List (List String)) (M : DistMatrix)
    (store : Nat → Option Package) (truck : Truck) (fuel : Nat) : RunResult :=
  deliverLoop addrRows M fuel { truck with packages := [] }
    (initOnboard store truck) []

/-! ## Specification-side definitions -/

/-- "The timestamp is unset or the query time precedes it." -/
def beforeStamp (q : ℚ) (stamp : Option ℚ) : Bool :=
  stamp.all (fun s => decide (q < s))

/-- The five-rule status precedence exactly as the specification words it,
top to bottom, first match wins. -/
def specStatusC4 (p : Package) (q : ℚ) : PStatus :=
  if p.ID = 9 ∧ q < ADDR_FIX_TIME then .atHubAwaitingFix
  else if is_delayed p ∧ q < DELAYED_TIME then .delayedArrival
  else if beforeStamp q p.departureTime then .atHub
  else if beforeStamp q p.deliveryTime then .enRoute (p.truck.getD "Truck")
  else .delivered

/-- Lifecycle position of a status, for the no-backwards-transition
property: awaiting correction, delayed, at hub, en route, delivered. -/
def statusRank : PStatus → Nat
  | .atHubAwaitingFix => 0
  | .delayedArrival => 1
  | .atHub => 2
  | .enRoute _ => 3
  | .delivered => 4

/-- The claim-side composite on-time score, without the id term: arrival
plus distance minus the early bonus. -/
def baseScore (h : HCand) : ℚ :=
  h.arr + h.d - (if h.arr ≤ h.dl - 10 then 1 / 5 else 0)

/-- A candidate with a hard deadline met by the projected arrival. -/
def isOnTimeCand (c : Cand) : Prop := ∃ v, c.dl = some v ∧ c.arr ≤ v

/-- A candidate whose hard deadline is missed by the projected arrival. -/
def isLateCand (c : Cand) : Prop := ∃ v, c.dl = some v ∧ v < c.arr

/-! ## C4 — status precedence -/

/-- C4: for every package and every query time, `statusUpdate` computes
exactly the five-rule precedence (address-correction gate, delay gate,
at hub, en route with the assigned vehicle name, delivered), evaluated
top to bottom with the first match winning. -/
theorem statusUpdate_follows_precedence (p : Package) (q : ℚ) :
    statusUpdate p q = specStatusC4 p q := by
  unfold statusUpdate specStatusC4 beforeStamp
  cases hd : p.departureTime <;> cases hv : p.deliveryTime <;>
    simp only [Option.all_none, Option.all_some, decide_eq_true_eq] <;>
    split_ifs <;> simp_all

/-! ## C9 — status is monotone in query time, delivered is terminal -/

/-- C9: with the package's timestamps and gate attributes fixed, the
status never moves to an earlier lifecycle state as the query time grows,
and "delivered" is terminal. -/
theorem statusUpdate_monotone (p : Package) (q1 q2 : ℚ) (h : q1 ≤ q2) :
    statusRank (statusUpdate p q1) ≤ statusRank (statusUpdate p q2) ∧
      (statusUpdate p q1 = .delivered → statusUpdate p q2 = .delivered) := by
  unfold statusUpdate
  cases hd : p.departureTime <;> cases hv : p.deliveryTime <;> split_ifs <;>
    simp_all [statusRank] <;>
    (try (split_ifs <;> simp_all [statusRank])) <;>
    linarith

/-! ## C6 — distance lookup never fails, fallback discipline -/

/-- C6: `dist_between` is total and follows the claimed case analysis:
a usable forward cell is returned as is; otherwise a numeric mirrored cell
is returned without touching the diagnostic counter; otherwise (both cells
unusable, an unresolved coordinate, or a coordinate out of the matrix
range) the fixed 7.5 fallback is returned and the counter is bumped by
exactly one; and a street `_address_index_for` cannot resolve maps to the
depot coordinate 0. -/
theorem dist_between_fallback_discipline (m : DistMatrix) :
    (∀ i j q, i < m.length → j < m.length →
      (m.getD i []).getD j none = some q →
      dist_between m (some i) (some j) = (q, false)) ∧
    (∀ i j q, i < m.length → j < m.length →
      (m.getD i []).getD j none = none →
      (m.getD j []).getD i none = some q →
      dist_between m (some i) (some j) = (q, false)) ∧
    (∀ i j, i < m.length → j < m.length →
      (m.getD i []).getD j none = none →
      (m.getD j []).getD i none = none →
      dist_between m (some i) (some j) = (7.5, true)) ∧
    (∀ i j, m.length ≤ i ∨ m.length ≤ j →
      dist_between m (some i) (some j) = (7.5, true)) ∧
    (∀ o, dist_between m none o = (7.5, true) ∧
      dist_between m o none = (7.5, true)) ∧
    (∀ rows street, _address_index_for rows street = none →
      address_idx rows street = 0) := by
  refine ⟨?_, ?_, ?_, ?_, ?_, ?_⟩
  · intro i j q hi hj hf
    simp only [dist_between]
    rw [if_neg (by omega : ¬(i ≥ m.length ∨ j ≥ m.length)), hf]
  · intro i j q hi hj hf hm
    simp only [dist_between]
    rw [if_neg (by omega : ¬(i ≥ m.length ∨ j ≥ m.length)), hf, hm]
  · intro i j hi hj hf hm
    simp only [dist_between]
    rw [if_neg (by omega : ¬(i ≥ m.length ∨ j ≥ m.length)), hf, hm]
  · intro i j hij
    rcases hij with hi | hj
    · simp [dist_between, hi]
    · simp [dist_between, hj]
  · intro o
    constructor
    · simp [dist_between]
    · cases o <;> simp [dist_between]
  · intro rows street hnone
    simp [address_idx, hnone]

/-! ## Selection-layer lemmas (for the tier-priority and scoring claims) -/

/-- The on-time part of the partition, as a `filterMap`. -/
lemma partition3_fst (info : List Cand) :
    (partition3 info).1 = info.filterMap (fun c =>
      match c.dl with
      | some dl => if c.arr ≤ dl then some (⟨c.p, c.d, c.arr, dl⟩ : HCand) else none
      | none => none) := by
  induction info with
  | nil => rfl
  | cons c rest ih =>
    simp only [partition3, List.filterMap_cons]
    cases hdl : c.dl <;> simp only [hdl] <;> [skip; split_ifs] <;> simp [ih]

/-- The late part of the partition, as a `filterMap`. -/
lemma partition3_late (info : List Cand) :
    (partition3 info).2.1 = info.filterMap (fun c =>
      match c.dl with
      | some dl => if c.arr ≤ dl then none else some (⟨c.p, c.d, c.arr, dl⟩ : HCand)
      | none => none) := by
  induction info with
  | nil => rfl
  | cons c rest ih =>
    simp only [partition3, List.filterMap_cons]
    cases hdl : c.dl <;> simp only [hdl] <;> [skip; split_ifs] <;> simp [ih]

/-- The unconstrained part of the partition, as a `filter`. -/
lemma partition3_eod (info : List Cand) :
    (partition3 info).2.2 = info.filter (fun c => c.dl.isNone) := by
  induction info with
  | nil => rfl
  | cons c rest ih =>
    simp only [partition3, List.filter_cons]
    cases hdl : c.dl <;> simp only [hdl] <;> [skip; split_ifs] <;> simp_all [ih, hdl]

/-- Case analysis for the strict-improvement score fold: either nothing
improved on the accumulator, or the result records some processed element
together with its score. -/
lemma scoreFold_cases {α : Type} (g : α → ℚ) (out : α → Package × ℚ) (l : List α) :
    ∀ acc : Option (Package × ℚ) × ℚ,
      l.foldl (fun a x => if g x < a.2 then (some (out x), g x) else a) acc = acc ∨
      ∃ x ∈ l, l.foldl (fun a x => if g x < a.2 then (some (out x), g x) else a) acc =
        (some (out x), g x) := by
  induction l with
  | nil => intro acc; left; rfl
  | cons h t ih =>
    intro acc
    simp only [List.foldl_cons]
    by_cases hlt : g h < acc.2
    · rw [if_pos hlt]
      rcases ih (some (out h), g h) with h1 | ⟨x, hx, h2⟩
      · right; exact ⟨h, by simp, h1⟩
      · right; exact ⟨x, by simp [hx], h2⟩
    · rw [if_neg hlt]
      rcases ih acc with h1 | ⟨x, hx, h2⟩
      · left; exact h1
      · right; exact ⟨x, by simp [hx], h2⟩

/-- The score fold never increases the best score, and ends at or below
every processed element's score. -/
lemma scoreFold_min {α : Type} (g : α → ℚ) (out : α → Package × ℚ) (l : List α) :
    ∀ acc : Option (Package × ℚ) × ℚ,
      (l.foldl (fun a x => if g x < a.2 then (some (out x), g x) else a) acc).2 ≤ acc.2 ∧
      ∀ x ∈ l,
        (l.foldl (fun a x => if g x < a.2 then (some (out x), g x) else a) acc).2 ≤ g x := by
  induction l with
  | nil => intro acc; exact ⟨le_refl _, by simp⟩
  | cons h t ih =>
    intro acc
    simp only [List.foldl_cons]
    by_cases hlt : g h < acc.2
    · rw [if_pos hlt]
      rcases ih (some (out h), g h) with ⟨h1, h2⟩
      refine ⟨le_trans h1 (le_of_lt hlt), ?_⟩
      intro x hx
      rcases List.mem_cons.1 hx with rfl | hx2
      · exact h1
      · exact h2 x hx2
    · rw [if_neg hlt]
      rcases ih acc with ⟨h1, h2⟩
      refine ⟨h1, ?_⟩
      intro x hx
      rcases List.mem_cons.1 hx with rfl | hx2
      · exact le_trans h1 (not_lt.1 hlt)
      · exact h2 x hx2

/-- On-time selection picks a member of the tier achieving the least
composite (sentinel-adjusted) score, provided some score beats the
sentinel. -/
lemma selOntime_spec (l : List HCand) (hne : l ≠ [])
    (hb : ∀ h ∈ l, hscore h < SENTINEL) :
    ∃ h ∈ l, selOntime l = some (h.p, h.d) ∧ ∀ h2 ∈ l, hscore h ≤ hscore h2 := by
  rcases l with _ | ⟨h0, t⟩
  · exact absurd rfl hne
  · have hb0 : hscore h0 < SENTINEL := hb h0 (by simp)
    have hca := scoreFold_cases hscore (fun h => (h.p, h.d)) t (some (h0.p, h0.d), hscore h0)
    have hmi := scoreFold_min hscore (fun h => (h.p, h.d)) t (some (h0.p, h0.d), hscore h0)
    have hsel : selOntime (h0 :: t) =
        (t.foldl (fun a x => if hscore x < a.2 then (some (x.p, x.d), hscore x) else a)
          ((some (h0.p, h0.d), hscore h0) : Option (Package × ℚ) × ℚ)).1 := by
      unfold selOntime
      simp only [List.foldl_cons]
      rw [if_pos hb0]
    rcases hca with h1 | ⟨x, hx, h2⟩
    · refine ⟨h0, by simp, by rw [hsel, h1], ?_⟩
      intro h2 hh2
      rcases List.mem_cons.1 hh2 with rfl | hh3
      · exact le_refl _
      · have := hmi.2 h2 hh3
        rw [h1] at this
        exact this
    · refine ⟨x, by simp [hx], by rw [hsel, h2], ?_⟩
      intro y hy
      have hx2 : hscore x =
          (t.foldl (fun a x => if hscore x < a.2 then (some (x.p, x.d), hscore x) else a)
            ((some (h0.p, h0.d), hscore h0) : Option (Package × ℚ) × ℚ)).2 := by
        rw [h2]
      rcases List.mem_cons.1 hy with rfl | hy2
      · rw [hx2]; exact hmi.1
      · rw [hx2]; exact hmi.2 y hy2

/-- Unconstrained-tier selection returns a member of the tier, provided
some nearest-neighbour score beats the sentinel. -/
lemma selEod_spec (l : List Cand) (hne : l ≠ [])
    (hb : ∀ c ∈ l, c.d + (c.p.ID : ℚ) * (1 / 1000000) < SENTINEL) :
    ∃ c ∈ l, selEod l = some (c.p, c.d) := by
  rcases l with _ | ⟨c0, t⟩
  · exact absurd rfl hne
  · have hb0 : c0.d + (c0.p.ID : ℚ) * (1 / 1000000) < SENTINEL := hb c0 (by simp)
    have hca := scoreFold_cases (fun c => c.d + (c.p.ID : ℚ) * (1 / 1000000))
      (fun c => (c.p, c.d)) t (some (c0.p, c0.d), c0.d + (c0.p.ID : ℚ) * (1 / 1000000))
    have hsel : selEod (c0 :: t) =
        (t.foldl (fun a x =>
            if x.d + (x.p.ID : ℚ) * (1 / 1000000) < a.2 then
              (some (x.p, x.d), x.d + (x.p.ID : ℚ) * (1 / 1000000))
            else a)
          ((some (c0.p, c0.d), c0.d + (c0.p.ID : ℚ) * (1 / 1000000)) :
            Option (Package × ℚ) × ℚ)).1 := by
      unfold selEod
      simp only [List.foldl_cons]
      rw [if_pos hb0]
    rcases hca with h1 | ⟨x, hx, h2⟩
    · exact ⟨c0, by simp, by rw [hsel, h1]⟩
    · exact ⟨x, by simp [hx], by rw [hsel, h2]⟩

/-- The late-tier replacement fold stays within the candidate list. -/
lemma foldl_choice_mem (t : List HCand) :
    ∀ h : HCand,
      t.foldl (fun cur new => if lateBetter cur new then new else cur) h ∈ h :: t := by
  induction t with
  | nil => intro h; simp
  | cons n t ih =>
    intro h
    simp only [List.foldl_cons]
    by_cases hb : lateBetter h n
    · rw [if_pos hb]
      rcases List.mem_cons.1 (ih n) with h1 | h1 <;> simp [h1]
    · rw [if_neg hb]
      rcases List.mem_cons.1 (ih h) with h1 | h1 <;> simp [h1]

/-- Late-tier selection returns a member of the tier. -/
lemma selLate_mem (l : List HCand) (hne : l ≠ []) :
    ∃ h ∈ l, selLate l = some (h.p, h.d) := by
  rcases l with _ | ⟨h0, t⟩
  · exact absurd rfl hne
  · exact ⟨t.foldl (fun cur new => if lateBetter cur new then new else cur) h0,
      foldl_choice_mem t h0, rfl⟩

/-- Every on-time tier entry comes from an `info` candidate whose arrival
meets its hard deadline. -/
lemma ontime_entry_src {info : List Cand} {h : HCand}
    (hmem : h ∈ (partition3 info).1) :
    ∃ c ∈ info, c.p = h.p ∧ c.d = h.d ∧ c.arr = h.arr ∧ c.dl = some h.dl ∧
      c.arr ≤ h.dl := by
  rw [partition3_fst] at hmem
  rcases List.mem_filterMap.1 hmem with ⟨c, hc, he⟩
  cases hdl : c.dl with
  | none => simp only [hdl] at he; exact absurd he (by simp)
  | some dl =>
    simp only [hdl] at he
    by_cases harr : c.arr ≤ dl
    · rw [if_pos harr] at he
      cases he
      exact ⟨c, hc, rfl, rfl, rfl, hdl, harr⟩
    · rw [if_neg harr] at he
      exact absurd he (by simp)

/-- Every late tier entry comes from an `info` candidate whose arrival
misses its hard deadline. -/
lemma late_entry_src {info : List Cand} {h : HCand}
    (hmem : h ∈ (partition3 info).2.1) :
    ∃ c ∈ info, c.p = h.p ∧ c.d = h.d ∧ c.arr = h.arr ∧ c.dl = some h.dl ∧
      h.dl < c.arr := by
  rw [partition3_late] at hmem
  rcases List.mem_filterMap.1 hmem with ⟨c, hc, he⟩
  cases hdl : c.dl with
  | none => simp only [hdl] at he; exact absurd he (by simp)
  | some dl =>
    simp only [hdl] at he
    by_cases harr : c.arr ≤ dl
    · rw [if_pos harr] at he
      exact absurd he (by simp)
    · rw [if_neg harr] at he
      cases he
      exact ⟨c, hc, rfl, rfl, rfl, hdl, not_le.1 harr⟩

/-- Without an on-time candidate the on-time tier is empty. -/
lemma partition3_fst_eq_nil {info : List Cand}
    (hno : ¬ ∃ c ∈ info, isOnTimeCand c) : (partition3 info).1 = [] := by
  by_contra hne
  obtain ⟨h, hh⟩ := List.exists_mem_of_ne_nil _ hne
  rcases ontime_entry_src hh with ⟨c', hc', _, _, harr', hdl', hle⟩
  exact hno ⟨c', hc', h.dl, hdl', hle⟩

/-- Without a late candidate the late tier is empty. -/
lemma partition3_late_eq_nil {info : List Cand}
    (hnl : ¬ ∃ c ∈ info, isLateCand c) : (partition3 info).2.1 = [] := by
  by_contra hne
  obtain ⟨h, hh⟩ := List.exists_mem_of_ne_nil _ hne
  rcases late_entry_src hh with ⟨c', hc', _, _, harr', hdl', hlt⟩
  exact hnl ⟨c', hc', h.dl, hdl', hlt⟩

/-- The composite on-time score is at most arrival plus distance plus the
id term (the bonus only subtracts). -/
lemma hscore_le (h : HCand) :
    hscore h ≤ h.arr + h.d + (h.p.ID : ℚ) * (1 / 1000000) := by
  simp only [hscore]
  split_ifs <;> linarith

/-! ## C2 — tier priority: on-time beats late beats unconstrained -/

/-- C2: at any iteration of the routing loop (i.e. for any candidate
`info` list whose scores stay below the `1e18` sentinel), if some eligible
candidate is on-time the selected package is an on-time candidate; a late
candidate is selected only when no on-time candidate exists; an
unconstrained candidate only when neither exists. -/
theorem routing_tier_priority (info : List Cand)
    (hbound : ∀ c ∈ info,
      c.arr + c.d + (c.p.ID : ℚ) * (1 / 1000000) < SENTINEL ∧
      c.d + (c.p.ID : ℚ) * (1 / 1000000) < SENTINEL) :
    ((∃ c ∈ info, isOnTimeCand c) →
      ∃ c ∈ info, isOnTimeCand c ∧ selectFrom info = some (c.p, c.d)) ∧
    ((¬ ∃ c ∈ info, isOnTimeCand c) → (∃ c ∈ info, isLateCand c) →
      ∃ c ∈ info, isLateCand c ∧ selectFrom info = some (c.p, c.d)) ∧
    ((¬ ∃ c ∈ info, isOnTimeCand c) → (¬ ∃ c ∈ info, isLateCand c) → info ≠ [] →
      ∃ c ∈ info, c.dl = none ∧ selectFrom info = some (c.p, c.d)) := by
  refine ⟨?_, ?_, ?_⟩
  · rintro ⟨c, hc, v, hdl, harr⟩
    have hmem : (⟨c.p, c.d, c.arr, v⟩ : HCand) ∈ (partition3 info).1 := by
      rw [partition3_fst]
      exact List.mem_filterMap.2 ⟨c, hc, by simp only [hdl]; rw [if_pos harr]⟩
    have hne : (partition3 info).1 ≠ [] := List.ne_nil_of_mem hmem
    have hb : ∀ h ∈ (partition3 info).1, hscore h < SENTINEL := by
      intro h hh
      rcases ontime_entry_src hh with ⟨c', hc', hp, hd, harr', _, _⟩
      have h1 := (hbound c' hc').1
      rw [hp, hd, harr'] at h1
      exact lt_of_le_of_lt (hscore_le h) h1
    obtain ⟨h, hh, hsel, _⟩ := selOntime_spec _ hne hb
    rcases ontime_entry_src hh with ⟨c', hc', hp, hd, harr', hdl', hle⟩
    refine ⟨c', hc', ⟨h.dl, hdl', hle⟩, ?_⟩
    simp only [selectFrom]
    rw [if_pos hne, hsel, hp, hd]
  · intro hno hlate
    have honone := partition3_fst_eq_nil hno
    obtain ⟨c, hc, v, hdl, hlt⟩ := hlate
    have hmem : (⟨c.p, c.d, c.arr, v⟩ : HCand) ∈ (partition3 info).2.1 := by
      rw [partition3_late]
      exact List.mem_filterMap.2 ⟨c, hc, by simp only [hdl]; rw [if_neg (not_le.2 hlt)]⟩
    have hne : (partition3 info).2.1 ≠ [] := List.ne_nil_of_mem hmem
    obtain ⟨h, hh, hsel⟩ := selLate_mem _ hne
    rcases late_entry_src hh with ⟨c', hc', hp, hd, harr', hdl', hlt'⟩
    refine ⟨c', hc', ⟨h.dl, hdl', hlt'⟩, ?_⟩
    simp only [selectFrom]
    rw [if_neg (by simp [honone]), if_pos hne, hsel, hp, hd]
  · intro hno hnl hinfo
    have h1 := partition3_fst_eq_nil hno
    have h2 := partition3_late_eq_nil hnl
    have hall : ∀ c ∈ info, c.dl = none := by
      intro c hc
      cases hdl : c.dl with
      | none => rfl
      | some v =>
        rcases le_or_lt c.arr v with hle | hlt
        · exact absurd ⟨c, hc, v, hdl, hle⟩ hno
        · exact absurd ⟨c, hc, v, hdl, hlt⟩ hnl
    have heod : (partition3 info).2.2 = info := by
      rw [partition3_eod]
      apply List.filter_eq_self.2
      intro c hc
      simp [hall c hc]
    obtain ⟨c, hc, hsel⟩ := selEod_spec ((partition3 info).2.2)
      (by rw [heod]; exact hinfo)
      (by rw [heod]; intro c hc; exact (hbound c hc).2)
    rw [heod] at hc
    refine ⟨c, hc, hall c hc, ?_⟩
    simp only [selectFrom]
    rw [if_neg (by simp [h1]), if_neg (by simp [h2]), hsel]

/-! ## C3 — on-time composite scoring -/

/-- A minimal package literal used in scoring scenarios. -/
def mkPkg (id : Nat) (street : String) : Package :=
  { ID := id, street := street, city := "Salt Lake City", state := "UT",
    zip := "84111", deadline := "10:30 AM", weight := "1", notes := "",
    _orig_street := street, _orig_zip := "84111",
    _corr_street := street, _corr_zip := "84111" }

/-- Two on-time candidates whose base scores differ by less than the
difference of their `ID * 1e-6` terms. -/
def infoIdTerm : List Cand :=
  [⟨mkPkg 40 "a st", 0, 100, some 1000⟩,
   ⟨mkPkg 1 "b st", 1 / 50000, 100, some 1000⟩]

/-- Counterexample to C3 as stated: with two on-time candidates, the
engine picks the id-1 candidate although the id-40 candidate has the
strictly smaller composite score (arrival + distance − bonus) — there is
no tie, yet the `ID * 1e-6` term overrides the base-score comparison. -/
theorem ontime_score_counterexample :
    (∀ c ∈ infoIdTerm, isOnTimeCand c) ∧
    baseScore ⟨mkPkg 40 "a st", 0, 100, 1000⟩ <
      baseScore ⟨mkPkg 1 "b st", 1 / 50000, 100, 1000⟩ ∧
    selectFrom infoIdTerm = some (mkPkg 1 "b st", 1 / 50000) := by
  refine ⟨?_, ?_, ?_⟩
  · intro c hc
    simp only [infoIdTerm, List.mem_cons, List.not_mem_nil, or_false] at hc
    rcases hc with rfl | rfl <;> exact ⟨1000, rfl, by norm_num⟩
  · norm_num [baseScore]
  · norm_num [selectFrom, infoIdTerm, partition3, selOntime, selLate, selEod, hscore,
      SENTINEL, mkPkg]
    exact fun h => absurd h (List.cons_ne_nil _ _)

/-- Two on-time candidates where only the farther one earns the ten-minute
early bonus. -/
def infoBonus : List Cand :=
  [⟨mkPkg 1 "near st", 3 / 100, 1 / 10, some 10⟩,
   ⟨mkPkg 2 "far st", 3 / 50, 1 / 5, some 30⟩]

/-- C3 (amended): the on-time tier selects a candidate minimizing the
sentinel-adjusted composite score — arrival plus distance minus the early
bonus plus the `ID * 1e-6` term — so exact composite ties between distinct
ids resolve to the lower id, but base-score gaps smaller than the id-term
difference can be overridden; and the early bonus can indeed make the
nominally farther candidate beat the nearest one. -/
theorem ontime_selection_minimizes_adjusted_score (info : List Cand)
    (hbound : ∀ c ∈ info, c.arr + c.d + (c.p.ID : ℚ) * (1 / 1000000) < SENTINEL)
    (hsome : ∃ c ∈ info, isOnTimeCand c) :
    (∃ h ∈ (partition3 info).1,
        selectFrom info = some (h.p, h.d) ∧
        ∀ h2 ∈ (partition3 info).1, hscore h ≤ hscore h2) ∧
    ((3 : ℚ) / 100 < 3 / 50 ∧
      selectFrom infoBonus = some (mkPkg 2 "far st", 3 / 50)) := by
  constructor
  · obtain ⟨c, hc, v, hdl, harr⟩ := hsome
    have hmem : (⟨c.p, c.d, c.arr, v⟩ : HCand) ∈ (partition3 info).1 := by
      rw [partition3_fst]
      exact List.mem_filterMap.2 ⟨c, hc, by simp only [hdl]; rw [if_pos harr]⟩
    have hne : (partition3 info).1 ≠ [] := List.ne_nil_of_mem hmem
    have hb : ∀ h ∈ (partition3 info).1, hscore h < SENTINEL := by
      intro h hh
      rcases ontime_entry_src hh with ⟨c', hc', hp, hd, harr', _, _⟩
      have h1 := hbound c' hc'
      rw [hp, hd, harr'] at h1
      exact lt_of_le_of_lt (hscore_le h) h1
    obtain ⟨h, hh, hsel, hmin⟩ := selOntime_spec _ hne hb
    refine ⟨h, hh, ?_, hmin⟩
    simp only [selectFrom]
    rw [if_pos hne, hsel]
  · refine ⟨by norm_num, ?_⟩
    norm_num [selectFrom, infoBonus, partition3, selOntime, selLate, selEod, hscore,
      SENTINEL, mkPkg]
    exact fun h => absurd h (List.cons_ne_nil _ _)

/-! ## C8 — keyed store verification -/

/-- `getD` after `set` at the written index. -/
lemma getD_set_self {α : Type} (l : List α) (i : Nat) (x d : α) (h : i < l.length) :
    (l.set i x).getD i d = x := by
  rw [List.getD_eq_getElem?_getD, List.getElem?_set_self h]
  rfl

/-- `getD` after `set` at a different index. -/
lemma getD_set_ne {α : Type} (l : List α) {i j : Nat} (x d : α) (h : i ≠ j) :
    (l.set i x).getD j d = l.getD j d := by
  rw [List.getD_eq_getElem?_getD, List.getElem?_set_ne h, ← List.getD_eq_getElem?_getD]

namespace HashTableWChains

variable {V : Type}

/-- Table well-formedness: a positive bucket count, every entry sits in
the bucket its key hashes to, and no bucket repeats a key. -/
def WF (t : HashTableWChains V) : Prop :=
  0 < t.table.length ∧
  (∀ i, i < t.table.length → ∀ kv ∈ t.table.getD i [], kv.1 % t.table.length = i) ∧
  (∀ i, i < t.table.length → ((t.table.getD i []).map Prod.fst).Nodup)

/-- In-bucket lookup after an in-bucket upsert. -/
lemma chainUpdate_find (arr : List (Nat × V)) (k : Nat) (v : V) (k' : Nat) :
    ((chainUpdate arr k v).1.find? (fun kv => kv.1 == k')).map Prod.snd =
      if k' = k then some v
      else (arr.find? (fun kv => kv.1 == k')).map Prod.snd := by
  induction arr with
  | nil =>
    by_cases h : k' = k
    · subst h
      rw [if_pos rfl]
      simp [chainUpdate]
    · rw [if_neg h]
      simp only [chainUpdate]
      rw [List.find?_cons_of_neg _ (by simp [beq_iff_eq]; exact fun hh => h hh.symm)]
  | cons e rest ih =>
    rcases e with ⟨k0, v0⟩
    simp only [chainUpdate]
    by_cases hk : k0 = k
    · rw [if_pos hk]
      by_cases h : k' = k
      · subst h
        rw [List.find?_cons_of_pos _ (by simp), if_pos rfl]
        rfl
      · rw [List.find?_cons_of_neg _ (by simp [beq_iff_eq]; exact fun hh => h hh.symm),
          if_neg h,
          List.find?_cons_of_neg _
            (by simp only [beq_iff_eq, hk]; exact fun hh => h hh.symm)]
    · rw [if_neg hk]
      by_cases h0 : k0 = k'
      · have hne : k' ≠ k := fun hh => hk (h0.trans hh)
        rw [List.find?_cons_of_pos _ (by simp [beq_iff_eq, h0]), if_neg hne,
          List.find?_cons_of_pos _ (by simp [beq_iff_eq, h0])]
      · rw [List.find?_cons_of_neg _ (by simp [beq_iff_eq, h0]),
          List.find?_cons_of_neg _ (by simp [beq_iff_eq, h0])]
        exact ih

/-- Each pair of the updated bucket is the new pair or an old one. -/
lemma chainUpdate_mem (arr : List (Nat × V)) (k : Nat) (v : V) :
    ∀ kv ∈ (chainUpdate arr k v).1, kv = (k, v) ∨ kv ∈ arr := by
  induction arr with
  | nil =>
    intro kv hkv
    simp only [chainUpdate, List.mem_singleton] at hkv
    exact Or.inl hkv
  | cons e rest ih =>
    rcases e with ⟨k0, v0⟩
    intro kv hkv
    simp only [chainUpdate] at hkv
    by_cases hk : k0 = k
    · rw [if_pos hk] at hkv
      rcases List.mem_cons.1 hkv with rfl | hm
      · exact Or.inl rfl
      · exact Or.inr (List.mem_cons_of_mem _ hm)
    · rw [if_neg hk] at hkv
      rcases List.mem_cons.1 hkv with rfl | hm
      · exact Or.inr (List.mem_cons_self _ _)
      · rcases ih kv hm with h | h
        · exact Or.inl h
        · exact Or.inr (List.mem_cons_of_mem _ h)

/-- The updated bucket's key list: unchanged on replacement, the new key
appended on growth; the flag reports which happened. -/
lemma chainUpdate_keys (arr : List (Nat × V)) (k : Nat) (v : V) :
    ((chainUpdate arr k v).2 = arr.any (fun kv => kv.1 == k)) ∧
    (chainUpdate arr k v).1.map Prod.fst =
      (if arr.any (fun kv => kv.1 == k) then arr.map Prod.fst
       else arr.map Prod.fst ++ [k]) := by
  induction arr with
  | nil => simp [chainUpdate]
  | cons e rest ih =>
    rcases e with ⟨k0, v0⟩
    simp only [chainUpdate]
    by_cases hk : k0 = k
    · rw [if_pos hk]
      constructor
      · simp [List.any_cons, hk]
      · rw [if_pos (by simp [List.any_cons, hk])]
        simp [hk]
    · rw [if_neg hk]
      constructor
      · simp [List.any_cons, hk, ih.1]
      · by_cases ha : rest.any (fun kv => kv.1 == k)
        · rw [if_pos (by simp [List.any_cons, ha])]
          simp only [List.map_cons]
          rw [ih.2, if_pos ha]
        · rw [if_neg (by simp [List.any_cons, ha, hk])]
          simp only [List.map_cons]
          rw [ih.2, if_neg ha]
          simp

/-- The updated bucket keeps its keys duplicate-free. -/
lemma chainUpdate_nodup (arr : List (Nat × V)) (k : Nat) (v : V)
    (h : (arr.map Prod.fst).Nodup) :
    ((chainUpdate arr k v).1.map Prod.fst).Nodup := by
  rw [(chainUpdate_keys arr k v).2]
  by_cases ha : arr.any (fun kv => kv.1 == k)
  · rwa [if_pos ha]
  · rw [if_neg ha]
    have hk : k ∉ arr.map Prod.fst := by
      intro hm
      rcases List.mem_map.1 hm with ⟨kv, hkv, he⟩
      exact absurd (List.any_eq_true.2 ⟨kv, hkv, by simp [beq_iff_eq, he]⟩) ha
    simp [List.nodup_append, h, hk]

/-- Both branches of `insertNoGrow` write the same table. -/
lemma insertNoGrow_table (t : HashTableWChains V) (k : Nat) (v : V) :
    (insertNoGrow t k v).table =
      t.table.set (t._bucket k)
        (chainUpdate (t.table.getD (t._bucket k) []) k v).1 := by
  simp only [insertNoGrow]
  split <;> rfl

/-- `insertNoGrow` keeps the bucket count. -/
lemma insertNoGrow_table_length (t : HashTableWChains V) (k : Nat) (v : V) :
    (insertNoGrow t k v).table.length = t.table.length := by
  rw [insertNoGrow_table, List.length_set]

/-- Lookup after a growth-free insert. -/
lemma insertNoGrow_search (t : HashTableWChains V) (hpos : 0 < t.table.length)
    (k : Nat) (v : V) (k' : Nat) :
    search (insertNoGrow t k v) k' = if k' = k then some v else search t k' := by
  have htab := insertNoGrow_table t k v
  simp only [_bucket] at htab
  by_cases hbb : k' % t.table.length = k % t.table.length
  · have h1 : search (insertNoGrow t k v) k' =
        ((chainUpdate (t.table.getD (k % t.table.length) []) k v).1.find?
          (fun kv => kv.1 == k')).map Prod.snd := by
      unfold search _bucket
      rw [htab, List.length_set, hbb,
        getD_set_self t.table (k % t.table.length) _ _ (Nat.mod_lt _ hpos)]
    rw [h1, chainUpdate_find]
    by_cases h : k' = k
    · rw [if_pos h, if_pos h]
    · rw [if_neg h, if_neg h]
      unfold search _bucket
      rw [hbb]
  · have hkne : k' ≠ k := fun he => hbb (by rw [he])
    rw [if_neg hkne]
    unfold search _bucket
    rw [htab, List.length_set, getD_set_ne _ _ _ (fun he => hbb he.symm)]

/-- `insertNoGrow` preserves well-formedness. -/
lemma insertNoGrow_WF (t : HashTableWChains V) (hwf : WF t) (k : Nat) (v : V) :
    WF (insertNoGrow t k v) := by
  obtain ⟨hpos, hplace, hnodup⟩ := hwf
  have htab := insertNoGrow_table t k v
  have hb : t._bucket k < t.table.length := Nat.mod_lt _ hpos
  refine ⟨?_, ?_, ?_⟩
  · rw [insertNoGrow_table_length]
    exact hpos
  · intro i hi kv hkv
    rw [insertNoGrow_table_length] at hi
    rw [htab] at hkv
    rw [insertNoGrow_table_length]
    by_cases hib : i = t._bucket k
    · subst hib
      rw [getD_set_self _ _ _ _ hb] at hkv
      rcases chainUpdate_mem _ _ _ kv hkv with rfl | hm
      · rfl
      · exact hplace _ hi kv hm
    · rw [getD_set_ne _ _ _ (fun he => hib he.symm)] at hkv
      exact hplace _ hi kv hkv
  · intro i hi
    rw [insertNoGrow_table_length] at hi
    rw [htab]
    by_cases hib : i = t._bucket k
    · subst hib
      rw [getD_set_self _ _ _ _ hb]
      exact chainUpdate_nodup _ _ _ (hnodup _ hi)
    · rw [getD_set_ne _ _ _ (fun he => hib he.symm)]
      exact hnodup _ hi

/-- `getD` of a replicated empty-bucket table. -/
lemma getD_replicate_nil (n i : Nat) :
    (List.replicate n ([] : List (Nat × V))).getD i [] = [] := by
  rw [List.getD_eq_getElem?_getD, List.getElem?_replicate]
  split <;> rfl

/-- The fresh table of any capacity is well-formed when non-empty. -/
lemma replicate_WF (c : Nat) (hc : 0 < c) :
    WF (⟨List.replicate c [], 0⟩ : HashTableWChains V) := by
  refine ⟨by simpa using hc, ?_, ?_⟩
  · intro i hi kv hkv
    rw [getD_replicate_nil] at hkv
    cases hkv
  · intro i hi
    rw [getD_replicate_nil]
    simp

/-- A bucket fold over `insertNoGrow` keeps the bucket count. -/
lemma foldl_insertNoGrow_table_length (entries : List (Nat × V)) :
    ∀ t : HashTableWChains V,
      (entries.foldl (fun acc kv => insertNoGrow acc kv.1 kv.2) t).table.length =
        t.table.length := by
  induction entries with
  | nil => intro t; rfl
  | cons e rest ih =>
    intro t
    simp only [List.foldl_cons]
    rw [ih, insertNoGrow_table_length]

/-- A fold over `insertNoGrow` preserves well-formedness. -/
lemma foldl_insertNoGrow_WF (entries : List (Nat × V)) :
    ∀ t : HashTableWChains V, WF t →
      WF (entries.foldl (fun acc kv => insertNoGrow acc kv.1 kv.2) t) := by
  induction entries with
  | nil => intro t h; exact h
  | cons e rest ih =>
    intro t h
    simp only [List.foldl_cons]
    exact ih _ (insertNoGrow_WF t h e.1 e.2)

/-- Reinserting entries with pairwise-distinct keys: lookup finds the
(unique) matching entry, else falls through to the underlying table. -/
lemma foldl_insertNoGrow_search (entries : List (Nat × V)) (k : Nat) :
    ∀ t : HashTableWChains V, 0 < t.table.length →
      (entries.map Prod.fst).Nodup →
      search (entries.foldl (fun acc kv => insertNoGrow acc kv.1 kv.2) t) k =
        match entries.find? (fun kv => kv.1 == k) with
        | some kv => some kv.2
        | none => search t k := by
  induction entries with
  | nil => intro t _ _; rfl
  | cons e rest ih =>
    intro t hpos hnd
    simp only [List.map_cons, List.nodup_cons] at hnd
    obtain ⟨hnotin, hnd2⟩ := hnd
    simp only [List.foldl_cons]
    have hpos2 : 0 < (insertNoGrow t e.1 e.2).table.length := by
      rw [insertNoGrow_table_length]
      exact hpos
    rw [ih _ hpos2 hnd2]
    cases hfind : rest.find? (fun kv => kv.1 == k) with
    | some kv =>
      by_cases hk : e.1 = k
      · have hkv1 : kv.1 = k := by
          simpa [beq_iff_eq] using List.find?_some hfind
        have hmemk : kv.1 ∈ rest.map Prod.fst :=
          List.mem_map_of_mem Prod.fst (List.mem_of_find?_eq_some hfind)
        rw [hkv1, ← hk] at hmemk
        exact absurd hmemk hnotin
      · rw [List.find?_cons_of_neg _ (by simp [beq_iff_eq, hk]), hfind]
    | none =>
      rw [insertNoGrow_search t hpos e.1 e.2 k]
      by_cases hk : e.1 = k
      · rw [List.find?_cons_of_pos _ (by simp [beq_iff_eq, hk]), if_pos hk.symm]
      · rw [List.find?_cons_of_neg _ (by simp [beq_iff_eq, hk]), hfind,
          if_neg (fun he => hk he.symm)]

/-- Under well-formedness the flattened entry list has pairwise-distinct
keys: each key lives only in its own bucket, once. -/
lemma flatten_keys_nodup (t : HashTableWChains V) (hwf : WF t) :
    (t.table.flatten.map Prod.fst).Nodup := by
  obtain ⟨hpos, hplace, hnodup⟩ := hwf
  rw [List.map_flatten, List.nodup_flatten]
  constructor
  · intro l hl
    rcases List.mem_iff_getElem.1 hl with ⟨i, hi, rfl⟩
    rw [List.length_map] at hi
    rw [List.getElem_map]
    have := hnodup i hi
    rwa [List.getD_eq_getElem?_getD, List.getElem?_eq_getElem hi] at this
  · rw [List.pairwise_iff_getElem]
    intro i j hi hj hij x hxi hxj
    rw [List.length_map] at hi hj
    rw [List.getElem_map] at hxi hxj
    rcases List.mem_map.1 hxi with ⟨kv1, hkv1, he1⟩
    rcases List.mem_map.1 hxj with ⟨kv2, hkv2, he2⟩
    have hp1 := hplace i hi kv1
      (by rw [List.getD_eq_getElem?_getD, List.getElem?_eq_getElem hi]; exact hkv1)
    have hp2 := hplace j hj kv2
      (by rw [List.getD_eq_getElem?_getD, List.getElem?_eq_getElem hj]; exact hkv2)
    rw [he1] at hp1
    rw [he2] at hp2
    omega

/-- With duplicate-free keys, `find?` returns exactly the member with the
sought key. -/
lemma find?_unique_mem {l : List (Nat × V)} (hn : (l.map Prod.fst).Nodup)
    {kv : Nat × V} (hm : kv ∈ l) :
    l.find? (fun x => x.1 == kv.1) = some kv := by
  induction l with
  | nil => cases hm
  | cons e rest ih =>
    simp only [List.map_cons, List.nodup_cons] at hn
    obtain ⟨hnotin, hn2⟩ := hn
    rcases List.mem_cons.1 hm with rfl | hm2
    · exact List.find?_cons_of_pos _ (by simp)
    · have hne : e.1 ≠ kv.1 := by
        intro he
        have : kv.1 ∈ rest.map Prod.fst := List.mem_map_of_mem Prod.fst hm2
        rw [← he] at this
        exact hnotin this
      rw [List.find?_cons_of_neg _ (by simp [beq_iff_eq, hne])]
      exact ih hn2 hm2

/-- Under well-formedness, `search` answers membership in the flattened
entry list. -/
lemma search_eq_some_iff (t : HashTableWChains V) (hwf : WF t) (k : Nat) (v : V) :
    search t k = some v ↔ (k, v) ∈ t.table.flatten := by
  have hb : t._bucket k < t.table.length := Nat.mod_lt _ hwf.1
  constructor
  · intro h
    unfold search at h
    cases hfind : (t.table.getD (t._bucket k) []).find? (fun kv => kv.1 == k) with
    | none => rw [hfind] at h; cases h
    | some kv =>
      rw [hfind] at h
      have hv : kv.2 = v := by simpa using h
      have hkey : kv.1 = k := by
        simpa [beq_iff_eq] using List.find?_some hfind
      have hmem : kv ∈ t.table.getD (t._bucket k) [] :=
        List.mem_of_find?_eq_some hfind
      have hkv : kv = (k, v) := by
        rcases kv with ⟨a, b⟩
        cases hkey
        cases hv
        rfl
      rw [← hkv]
      refine List.mem_flatten.2 ⟨t.table.getD (t._bucket k) [], ?_, hmem⟩
      rw [List.getD_eq_getElem?_getD, List.getElem?_eq_getElem hb]
      exact List.getElem_mem hb
  · intro hmem
    rcases List.mem_flatten.1 hmem with ⟨bucket, hbm, hkv⟩
    rcases List.mem_iff_getElem.1 hbm with ⟨i, hi, rfl⟩
    have hgd : t.table.getD i [] = t.table[i] := by
      rw [List.getD_eq_getElem?_getD, List.getElem?_eq_getElem hi]
      rfl
    have hplace := hwf.2.1 i hi (k, v) (by rw [hgd]; exact hkv)
    have hbi : t._bucket k = i := hplace
    unfold search
    rw [hbi, hgd]
    have hnodup := hwf.2.2 i hi
    rw [hgd] at hnodup
    rw [find?_unique_mem hnodup hkv]
    rfl

/-- A bucket with no occurrence of the key makes the lookup miss. -/
lemma not_any_search_none (t : HashTableWChains V) (k : Nat)
    (h : (t.table.getD (t._bucket k) []).any (fun kv => kv.1 == k) = false) :
    search t k = none := by
  unfold search
  rw [List.find?_eq_none.2 (fun kv hkv => by
    have := List.any_eq_false.1 h kv hkv
    simpa using this)]
  rfl

/-- A missed lookup means the key occurs nowhere in its bucket. -/
lemma search_none_not_any (t : HashTableWChains V) (k : Nat)
    (h : search t k = none) :
    (t.table.getD (t._bucket k) []).any (fun kv => kv.1 == k) = false := by
  unfold search at h
  cases hf : (t.table.getD (t._bucket k) []).find? (fun kv => kv.1 == k) with
  | some kv => rw [hf] at h; cases h
  | none =>
    rw [List.any_eq_false]
    intro kv hkv
    have := List.find?_eq_none.1 hf kv hkv
    simpa using this

/-- Growing in-bucket update: the new pair is appended at the end. -/
lemma chainUpdate_entries_fresh (arr : List (Nat × V)) (k : Nat) (v : V)
    (h : (chainUpdate arr k v).2 = false) :
    (chainUpdate arr k v).1 = arr ++ [(k, v)] := by
  induction arr with
  | nil => rfl
  | cons e rest ih =>
    rcases e with ⟨k0, v0⟩
    simp only [chainUpdate] at h ⊢
    by_cases hk : k0 = k
    · rw [if_pos hk] at h
      cases h
    · rw [if_neg hk] at h ⊢
      simp only at h ⊢
      rw [ih h]
      simp

/-- A growing `insertNoGrow` in full: bucket appended, size bumped. -/
lemma insertNoGrow_fresh (t : HashTableWChains V) (k : Nat) (v : V)
    (hflag : (chainUpdate (t.table.getD (t._bucket k) []) k v).2 = false) :
    insertNoGrow t k v =
      ⟨t.table.set (t._bucket k)
        ((t.table.getD (t._bucket k) []) ++ [(k, v)]), t.size + 1⟩ := by
  unfold insertNoGrow
  rw [if_neg (by rw [hflag]; exact Bool.false_ne_true),
    chainUpdate_entries_fresh _ _ _ hflag]

/-- Total entry count after replacing one bucket (subtraction-free). -/
lemma flatten_length_set {α : Type} (l : List (List α)) (x : List α) :
    ∀ i, i < l.length →
      (l.set i x).flatten.length + (l.getD i []).length =
        l.flatten.length + x.length := by
  induction l with
  | nil => intro i hi; cases hi
  | cons hd tl ih =>
    intro i hi
    cases i with
    | zero =>
      simp only [List.set_cons_zero, List.flatten_cons, List.length_append,
        List.getD_cons_zero]
      omega
    | succ j =>
      simp only [List.set_cons_succ, List.flatten_cons, List.length_append,
        List.getD_cons_succ]
      have := ih j (by simpa using hi)
      omega

/-- The flattened table of all-empty buckets is empty. -/
lemma flatten_replicate_nil {α : Type} (n : Nat) :
    (List.replicate n ([] : List α)).flatten = [] := by
  induction n with
  | zero => rfl
  | succ m ih => simp [List.replicate_succ, ih]

/-- A growing `insertNoGrow` adds exactly one entry to the table. -/
lemma insertNoGrow_flatten_fresh (t : HashTableWChains V) (k : Nat) (v : V)
    (hpos : 0 < t.table.length)
    (hflag : (chainUpdate (t.table.getD (t._bucket k) []) k v).2 = false) :
    (insertNoGrow t k v).table.flatten.length = t.table.flatten.length + 1 := by
  rw [insertNoGrow_fresh t k v hflag]
  have hb : t._bucket k < t.table.length := Nat.mod_lt _ hpos
  have := flatten_length_set t.table
    ((t.table.getD (t._bucket k) []) ++ [(k, v)]) (t._bucket k) hb
  simp only [List.length_append, List.length_singleton] at this
  show (t.table.set (t._bucket k)
    ((t.table.getD (t._bucket k) []) ++ [(k, v)])).flatten.length =
    t.table.flatten.length + 1
  omega

/-- A replacing `insertNoGrow` keeps the entry count. -/
lemma insertNoGrow_flatten_stay (t : HashTableWChains V) (k : Nat) (v : V)
    (hpos : 0 < t.table.length)
    (hflag : (chainUpdate (t.table.getD (t._bucket k) []) k v).2 = true) :
    (insertNoGrow t k v).table.flatten.length = t.table.flatten.length := by
  have htab := insertNoGrow_table t k v
  have hb : t._bucket k < t.table.length := Nat.mod_lt _ hpos
  have hany : (t.table.getD (t._bucket k) []).any (fun kv => kv.1 == k) = true := by
    rw [← (chainUpdate_keys (t.table.getD (t._bucket k) []) k v).1]
    exact hflag
  have hkeys := (chainUpdate_keys (t.table.getD (t._bucket k) []) k v).2
  rw [if_pos hany] at hkeys
  have hlen : (chainUpdate (t.table.getD (t._bucket k) []) k v).1.length =
      (t.table.getD (t._bucket k) []).length := by
    have := congrArg List.length hkeys
    simpa using this
  have := flatten_length_set t.table
    (chainUpdate (t.table.getD (t._bucket k) []) k v).1 (t._bucket k) hb
  rw [htab]
  omega

/-- Any fold of a pointwise search-preserving, WF-preserving insert
operation preserves well-formedness. -/
lemma foldl_pointwise_WF (f : HashTableWChains V → Nat → V → HashTableWChains V)
    (hf : ∀ t k v, WF t → WF (f t k v)) (entries : List (Nat × V)) :
    ∀ t : HashTableWChains V, WF t →
      WF (entries.foldl (fun acc kv => f acc kv.1 kv.2) t) := by
  induction entries with
  | nil => intro t h; exact h
  | cons e rest ih =>
    intro t h
    simp only [List.foldl_cons]
    exact ih _ (hf t e.1 e.2 h)

/-- Folding a pointwise-upsert operation over entries with pairwise
distinct keys: lookup finds the (unique) matching entry, else falls
through to the underlying table. -/
lemma foldl_pointwise_search
    (f : HashTableWChains V → Nat → V → HashTableWChains V)
    (hfWF : ∀ t k v, WF t → WF (f t k v))
    (hfs : ∀ t k v k', WF t →
      search (f t k v) k' = if k' = k then some v else search t k')
    (entries : List (Nat × V)) (k : Nat) :
    ∀ t : HashTableWChains V, WF t → (entries.map Prod.fst).Nodup →
      search (entries.foldl (fun acc kv => f acc kv.1 kv.2) t) k =
        match entries.find? (fun kv => kv.1 == k) with
        | some kv => some kv.2
        | none => search t k := by
  induction entries with
  | nil => intro t _ _; rfl
  | cons e rest ih =>
    intro t hwf hnd
    simp only [List.map_cons, List.nodup_cons] at hnd
    obtain ⟨hnotin, hnd2⟩ := hnd
    simp only [List.foldl_cons]
    rw [ih _ (hfWF t e.1 e.2 hwf) hnd2]
    cases hfind : rest.find? (fun kv => kv.1 == k) with
    | some kv =>
      by_cases hk : e.1 = k
      · have hkv1 : kv.1 = k := by
          simpa [beq_iff_eq] using List.find?_some hfind
        have hmemk : kv.1 ∈ rest.map Prod.fst :=
          List.mem_map_of_mem Prod.fst (List.mem_of_find?_eq_some hfind)
        rw [hkv1, ← hk] at hmemk
        exact absurd hmemk hnotin
      · rw [List.find?_cons_of_neg _ (by simp [beq_iff_eq, hk]), hfind]
    | none =>
      rw [hfs t e.1 e.2 k hwf]
      by_cases hk : e.1 = k
      · rw [List.find?_cons_of_pos _ (by simp [beq_iff_eq, hk]), if_pos hk.symm]
      · rw [List.find?_cons_of_neg _ (by simp [beq_iff_eq, hk]), hfind,
          if_neg (fun he => hk he.symm)]

/-- `_resize` preserves well-formedness, given the pointwise property of
its reinsertion operation at the same depth. -/
lemma _resize_WF_of (fuel : Nat)
    (hf : ∀ t : HashTableWChains V, ∀ k v, WF t → WF (insertF fuel t k v)) :
    ∀ t : HashTableWChains V, 0 < t.table.length → WF (_resize fuel t) := by
  intro t hpos
  unfold _resize
  exact foldl_pointwise_WF _ hf _ _ (replicate_WF _ (by omega))

/-- `_resize` preserves every lookup, given the pointwise properties of
its reinsertion operation at the same depth. -/
lemma _resize_search_of (fuel : Nat)
    (hfWF : ∀ t : HashTableWChains V, ∀ k v, WF t → WF (insertF fuel t k v))
    (hfs : ∀ t : HashTableWChains V, ∀ k v k', WF t →
      search (insertF fuel t k v) k' = if k' = k then some v else search t k') :
    ∀ t : HashTableWChains V, WF t → ∀ k,
      search (_resize fuel t) k = search t k := by
  intro t hwf k
  have hkeys := flatten_keys_nodup t hwf
  unfold _resize
  rw [foldl_pointwise_search _ hfWF hfs _ k _
    (replicate_WF _ (by have := hwf.1; omega)) hkeys]
  cases hs : search t k with
  | some v =>
    have hmem : (k, v) ∈ t.table.flatten := (search_eq_some_iff t hwf k v).1 hs
    rw [find?_unique_mem hkeys hmem]
  | none =>
    have hfind : t.table.flatten.find? (fun kv => kv.1 == k) = none := by
      rw [List.find?_eq_none]
      intro kv hkv
      simp only [beq_iff_eq, decide_eq_true_eq]
      intro he
      have hm2 : (k, kv.2) ∈ t.table.flatten := by
        rcases kv with ⟨a, b⟩
        cases he
        exact hkv
      have := (search_eq_some_iff t hwf k kv.2).2 hm2
      rw [hs] at this
      cases this
    rw [hfind]
    unfold search
    rw [getD_replicate_nil]
    rfl

/-- One step of `insert` at positive depth: a growth-free insert when the
key was present or the load factor stays at or below 3/4, else the
growth-free insert followed by the resize at the next depth. -/
lemma insertF_succ_cases (fuel : Nat) (t : HashTableWChains V) (k : Nat) (v : V) :
    (insertF (fuel + 1) t k v = insertNoGrow t k v ∧
      ((chainUpdate (t.table.getD (t._bucket k) []) k v).2 = true ∨
        (t.size + 1) * 4 ≤ t.table.length * 3)) ∨
    ((chainUpdate (t.table.getD (t._bucket k) []) k v).2 = false ∧
      t.table.length * 3 < (t.size + 1) * 4 ∧
      insertF (fuel + 1) t k v = _resize fuel (insertNoGrow t k v)) := by
  simp only [insertF, List.length_set]
  by_cases hr : (chainUpdate (t.table.getD (t._bucket k) []) k v).2
  · left
    rw [if_pos hr]
    refine ⟨?_, Or.inl hr⟩
    simp only [insertNoGrow]
    rw [if_pos hr]
  · rw [if_neg hr]
    by_cases ht : (t.size + 1) * 4 > t.table.length * 3
    · right
      rw [if_pos ht]
      refine ⟨Bool.eq_false_iff.2 hr, by omega, ?_⟩
      simp only [insertNoGrow]
      rw [if_neg hr]
    · left
      rw [if_neg ht]
      refine ⟨?_, Or.inr (by omega)⟩
      simp only [insertNoGrow]
      rw [if_neg hr]

/-- The simultaneous induction behind the `insert`/`_resize` pair: at
every depth the insert is an upsert for lookups and preserves
well-formedness. -/
lemma insertF_WF_search (fuel : Nat) :
    (∀ t : HashTableWChains V, ∀ k v, WF t → WF (insertF fuel t k v)) ∧
    (∀ t : HashTableWChains V, ∀ k v k', WF t →
      search (insertF fuel t k v) k' = if k' = k then some v else search t k') := by
  induction fuel with
  | zero =>
    constructor
    · intro t k v hwf
      simp only [insertF]
      exact insertNoGrow_WF t hwf k v
    · intro t k v k' hwf
      simp only [insertF]
      exact insertNoGrow_search t hwf.1 k v k'
  | succ fuel ih =>
    constructor
    · intro t k v hwf
      rcases insertF_succ_cases fuel t k v with ⟨h, _⟩ | ⟨_, _, h⟩
      · rw [h]
        exact insertNoGrow_WF t hwf k v
      · rw [h]
        exact _resize_WF_of fuel ih.1 _
          (by rw [insertNoGrow_table_length]; exact hwf.1)
    · intro t k v k' hwf
      rcases insertF_succ_cases fuel t k v with ⟨h, _⟩ | ⟨_, _, h⟩
      · rw [h]
        exact insertNoGrow_search t hwf.1 k v k'
      · rw [h, _resize_search_of fuel ih.1 ih.2 _ (insertNoGrow_WF t hwf k v),
          insertNoGrow_search t hwf.1]

/-- `_resize` preserves well-formedness at every depth. -/
lemma _resize_WF (fuel : Nat) (t : HashTableWChains V)
    (hpos : 0 < t.table.length) : WF (_resize fuel t) :=
  _resize_WF_of fuel (insertF_WF_search fuel).1 t hpos

/-- `_resize` preserves every lookup, at every depth. -/
lemma _resize_search (fuel : Nat) (t : HashTableWChains V) (hwf : WF t)
    (k : Nat) : search (_resize fuel t) k = search t k :=
  _resize_search_of fuel (insertF_WF_search fuel).1 (insertF_WF_search fuel).2
    t hwf k

/-- `insert` is a growth-free insert, possibly followed by the resize,
with the load-factor trigger exactly as in the source. -/
lemma insert_cases (t : HashTableWChains V) (k : Nat) (v : V) :
    (insert t k v = insertNoGrow t k v ∧
      ((chainUpdate (t.table.getD (t._bucket k) []) k v).2 = true ∨
        (t.size + 1) * 4 ≤ t.table.length * 3)) ∨
    ((chainUpdate (t.table.getD (t._bucket k) []) k v).2 = false ∧
      t.table.length * 3 < (t.size + 1) * 4 ∧
      insert t k v =
        _resize (t.table.flatten.length + 2) (insertNoGrow t k v)) := by
  have h := insertF_succ_cases (t.table.flatten.length + 2) t k v
  have hf : t.table.flatten.length + 3 = t.table.flatten.length + 2 + 1 := by
    omega
  unfold insert
  rw [hf]
  exact h

/-- Lookup after `insert`: the inserted key reads back the new value,
every other key is untouched (resizes included). -/
lemma insert_search (t : HashTableWChains V) (hwf : WF t) (k : Nat) (v : V)
    (k' : Nat) :
    search (insert t k v) k' = if k' = k then some v else search t k' := by
  unfold insert
  exact (insertF_WF_search _).2 t k v k' hwf

/-- `insert` preserves well-formedness. -/
lemma insert_WF (t : HashTableWChains V) (hwf : WF t) (k : Nat) (v : V) :
    WF (insert t k v) := by
  unfold insert
  exact (insertF_WF_search _).1 t k v hwf

/-- While one more insertion keeps the load factor at or below 3/4, the
depth-indexed insert never resizes. -/
lemma insertF_eq_noGrow (fuel : Nat) (t : HashTableWChains V) (k : Nat) (v : V)
    (hsmall : (t.size + 1) * 4 ≤ t.table.length * 3) :
    insertF fuel t k v = insertNoGrow t k v := by
  cases fuel with
  | zero => simp only [insertF]
  | succ fuel =>
    rcases insertF_succ_cases fuel t k v with ⟨h, _⟩ | ⟨_, ht, _⟩
    · exact h
    · omega

/-- Folding the depth-indexed insert over fresh, pairwise-distinct keys
that fit below the load threshold is a plain reinsertion fold. -/
lemma foldl_insertF_eq_noGrow (fuel : Nat) (entries : List (Nat × V)) :
    ∀ t : HashTableWChains V, WF t → (entries.map Prod.fst).Nodup →
      (∀ kv ∈ entries, search t kv.1 = none) →
      (t.size + entries.length) * 4 ≤ t.table.length * 3 →
      entries.foldl (fun acc kv => insertF fuel acc kv.1 kv.2) t =
        entries.foldl (fun acc kv => insertNoGrow acc kv.1 kv.2) t := by
  induction entries with
  | nil => intro t _ _ _ _; rfl
  | cons e rest ih =>
    intro t hwf hnd hfresh hcap
    simp only [List.map_cons, List.nodup_cons] at hnd
    obtain ⟨hnotin, hnd2⟩ := hnd
    simp only [List.length_cons] at hcap
    have hhead : insertF fuel t e.1 e.2 = insertNoGrow t e.1 e.2 :=
      insertF_eq_noGrow fuel t e.1 e.2 (by omega)
    simp only [List.foldl_cons, hhead]
    have hflag : (chainUpdate (t.table.getD (t._bucket e.1) []) e.1 e.2).2 =
        false := by
      rw [(chainUpdate_keys _ e.1 e.2).1]
      exact search_none_not_any t e.1 (hfresh e (List.mem_cons_self _ _))
    have hsize : (insertNoGrow t e.1 e.2).size = t.size + 1 := by
      rw [insertNoGrow_fresh t e.1 e.2 hflag]
    refine ih (insertNoGrow t e.1 e.2) (insertNoGrow_WF t hwf e.1 e.2) hnd2
      ?_ ?_
    · intro kv hkv
      rw [insertNoGrow_search t hwf.1 e.1 e.2 kv.1]
      have hne : kv.1 ≠ e.1 := by
        intro he
        exact hnotin (he ▸ List.mem_map_of_mem Prod.fst hkv)
      rw [if_neg hne]
      exact hfresh kv (List.mem_cons_of_mem _ hkv)
    · rw [hsize, insertNoGrow_table_length]
      omega

/-- A plain reinsertion fold over fresh, pairwise-distinct keys grows the
size counter and the entry population by exactly the number of entries. -/
lemma foldl_insertNoGrow_fresh (entries : List (Nat × V)) :
    ∀ t : HashTableWChains V, WF t → (entries.map Prod.fst).Nodup →
      (∀ kv ∈ entries, search t kv.1 = none) →
      (entries.foldl (fun acc kv => insertNoGrow acc kv.1 kv.2) t).size =
        t.size + entries.length ∧
      (entries.foldl
          (fun acc kv => insertNoGrow acc kv.1 kv.2) t).table.flatten.length =
        t.table.flatten.length + entries.length := by
  induction entries with
  | nil => intro t _ _ _; exact ⟨rfl, rfl⟩
  | cons e rest ih =>
    intro t hwf hnd hfresh
    simp only [List.map_cons, List.nodup_cons] at hnd
    obtain ⟨hnotin, hnd2⟩ := hnd
    have hflag : (chainUpdate (t.table.getD (t._bucket e.1) []) e.1 e.2).2 =
        false := by
      rw [(chainUpdate_keys _ e.1 e.2).1]
      exact search_none_not_any t e.1 (hfresh e (List.mem_cons_self _ _))
    have hsize : (insertNoGrow t e.1 e.2).size = t.size + 1 := by
      rw [insertNoGrow_fresh t e.1 e.2 hflag]
    have hflat := insertNoGrow_flatten_fresh t e.1 e.2 hwf.1 hflag
    simp only [List.foldl_cons, List.length_cons]
    have hfresh2 : ∀ kv ∈ rest, search (insertNoGrow t e.1 e.2) kv.1 = none := by
      intro kv hkv
      rw [insertNoGrow_search t hwf.1 e.1 e.2 kv.1]
      have hne : kv.1 ≠ e.1 := by
        intro he
        exact hnotin (he ▸ List.mem_map_of_mem Prod.fst hkv)
      rw [if_neg hne]
      exact hfresh kv (List.mem_cons_of_mem _ hkv)
    have := ih (insertNoGrow t e.1 e.2) (insertNoGrow_WF t hwf e.1 e.2) hnd2
      hfresh2
    rw [this.1, this.2, hsize, hflat]
    omega

/-- The invariant of every table the store's API can reach: well-formed,
a size counter that equals the entry population, and a load factor at or
below 3/4. -/
def StoreInv (t : HashTableWChains V) : Prop :=
  WF t ∧ t.size = t.table.flatten.length ∧ t.size * 4 ≤ t.table.length * 3

/-- On an invariant table, `_resize` never cascades: it is the plain
reinsertion fold, doubling the bucket count exactly once and preserving
the entry population. -/
lemma _resize_no_cascade (fuel : Nat) (t : HashTableWChains V) (hwf : WF t)
    (hbound : t.table.flatten.length * 4 ≤ t.table.length * 6) :
    (_resize fuel t).table.length = t.table.length * 2 ∧
    (_resize fuel t).size = t.table.flatten.length ∧
    (_resize fuel t).table.flatten.length = t.table.flatten.length := by
  have hkeys := flatten_keys_nodup t hwf
  have hbase : WF (⟨List.replicate (t.table.length * 2) [], 0⟩ :
      HashTableWChains V) :=
    replicate_WF _ (by have := hwf.1; omega)
  have hfreshbase : ∀ kv ∈ t.table.flatten,
      search (⟨List.replicate (t.table.length * 2) [], 0⟩ :
        HashTableWChains V) kv.1 = none := by
    intro kv _
    unfold search
    rw [getD_replicate_nil]
    rfl
  have hbound2 : (0 + t.table.flatten.length) * 4 ≤ t.table.length * 2 * 3 := by
    omega
  unfold _resize
  rw [foldl_insertF_eq_noGrow fuel t.table.flatten _ hbase hkeys hfreshbase
    (by simpa using hbound2)]
  have hfacts := foldl_insertNoGrow_fresh t.table.flatten _ hbase hkeys
    hfreshbase
  refine ⟨?_, ?_, ?_⟩
  · rw [foldl_insertNoGrow_table_length]
    simp
  · rw [hfacts.1]
    simp
  · rw [hfacts.2]
    simp [flatten_replicate_nil]

/-- The invariant is preserved by `insert`, and a triggering insert of a
fresh key doubles the bucket count exactly once (the no-cascade case of
`_resize` applies: the invariant bounds the reinserted population by
three quarters of the doubled bucket count). -/
lemma insert_inv_spec (t : HashTableWChains V) (k : Nat) (v : V)
    (hinv : StoreInv t) :
    StoreInv (insert t k v) ∧
    (search t k = none → t.table.length * 3 < (t.size + 1) * 4 →
      (insert t k v).table.length = t.table.length * 2) := by
  obtain ⟨hwf, hhon, hload⟩ := hinv
  rcases insert_cases t k v with ⟨heq, hor⟩ | ⟨hflag, htrig, heq⟩
  · constructor
    · rw [heq]
      refine ⟨insertNoGrow_WF t hwf k v, ?_, ?_⟩
      · cases hflag : (chainUpdate (t.table.getD (t._bucket k) []) k v).2 with
        | true =>
          have hsz : (insertNoGrow t k v).size = t.size := by
            unfold insertNoGrow
            rw [if_pos hflag]
          rw [hsz, insertNoGrow_flatten_stay t k v hwf.1 hflag, hhon]
        | false =>
          have hsz : (insertNoGrow t k v).size = t.size + 1 := by
            rw [insertNoGrow_fresh t k v hflag]
          rw [hsz, insertNoGrow_flatten_fresh t k v hwf.1 hflag, hhon]
      · rw [insertNoGrow_table_length]
        cases hflag : (chainUpdate (t.table.getD (t._bucket k) []) k v).2 with
        | true =>
          have hsz : (insertNoGrow t k v).size = t.size := by
            unfold insertNoGrow
            rw [if_pos hflag]
          rw [hsz]
          exact hload
        | false =>
          have hsz : (insertNoGrow t k v).size = t.size + 1 := by
            rw [insertNoGrow_fresh t k v hflag]
          rw [hsz]
          rcases hor with hor | hor
          · rw [hflag] at hor
            cases hor
          · exact hor
    · intro hfresh htrig
      rcases hor with hor | hor
      · have := search_none_not_any t k hfresh
        rw [(chainUpdate_keys _ k v).1] at hor
        rw [hor] at this
        cases this
      · omega
  · have hgrown := insertNoGrow_fresh t k v hflag
    have hgWF : WF (insertNoGrow t k v) := insertNoGrow_WF t hwf k v
    have hgflat : (insertNoGrow t k v).table.flatten.length =
        t.table.flatten.length + 1 :=
      insertNoGrow_flatten_fresh t k v hwf.1 hflag
    have hglen : (insertNoGrow t k v).table.length = t.table.length :=
      insertNoGrow_table_length t k v
    have hbound : (insertNoGrow t k v).table.flatten.length * 4 ≤
        (insertNoGrow t k v).table.length * 6 := by
      rw [hgflat, hglen]
      have := hwf.1
      omega
    have hres := _resize_no_cascade (t.table.flatten.length + 2)
      (insertNoGrow t k v) hgWF hbound
    have hpos := hwf.1
    constructor
    · rw [heq]
      refine ⟨_resize_WF (t.table.flatten.length + 2) _
        (by rw [hglen]; exact hwf.1), ?_, ?_⟩
      · rw [hres.2.1, hres.2.2]
      · rw [hres.2.1, hres.1, hgflat, hglen]
        omega
    · intro _ _
      rw [heq, hres.1, hglen]

/-- The store built by a sequence of `insert` operations on the initial
64-bucket table (the model of `packageHash` under a run's inserts). -/
def applyOps (ops : List (Nat × V)) : HashTableWChains V :=
  ops.foldl (fun t kv => t.insert kv.1 kv.2) (empty V 64)

/-- Specification-side lookup: the most recently inserted value for a
key, scanning the operation sequence left to right. -/
def lastInserted (ops : List (Nat × V)) (k : Nat) : Option V :=
  ops.foldl (fun acc kv => if kv.1 = k then some kv.2 else acc) none

/-- The empty table is well-formed. -/
lemma empty_WF (c : Nat) (hc : 0 < c) : WF (empty V c) :=
  replicate_WF c hc

/-- Lookup in a fresh table finds nothing. -/
lemma search_empty (c k : Nat) : search (empty V c) k = none := by
  unfold search empty
  rw [getD_replicate_nil]
  rfl

/-- Folding `insert` tracks the specification-side fold in lockstep. -/
lemma foldl_insert_search (ops : List (Nat × V)) (k : Nat) :
    ∀ t : HashTableWChains V, WF t →
      search (ops.foldl (fun t kv => t.insert kv.1 kv.2) t) k =
        ops.foldl (fun acc kv => if kv.1 = k then some kv.2 else acc)
          (search t k) := by
  induction ops with
  | nil => intro t _; rfl
  | cons e rest ih =>
    intro t hwf
    simp only [List.foldl_cons]
    rw [ih _ (insert_WF t hwf e.1 e.2)]
    have h1 := insert_search t hwf e.1 e.2 k
    by_cases h : e.1 = k
    · rw [h1, if_pos h.symm, if_pos h]
    · rw [h1, if_neg (fun hh => h hh.symm), if_neg h]

/-- `lastInserted` depends only on the operations touching the key. -/
lemma lastInserted_filter (ops : List (Nat × V)) (k : Nat) :
    lastInserted ops k =
      lastInserted (ops.filter (fun kv => kv.1 == k)) k := by
  suffices h : ∀ acc : Option V,
      ops.foldl (fun acc kv => if kv.1 = k then some kv.2 else acc) acc =
        (ops.filter (fun kv => kv.1 == k)).foldl
          (fun acc kv => if kv.1 = k then some kv.2 else acc) acc from h none
  induction ops with
  | nil => intro acc; rfl
  | cons e rest ih =>
    intro acc
    simp only [List.foldl_cons, List.filter_cons]
    by_cases h : e.1 = k
    · rw [if_pos h]
      simp only [h, beq_self_eq_true, if_pos]
      simp only [List.foldl_cons, if_pos h]
      exact ih _
    · rw [if_neg h]
      rw [if_neg (by simp [beq_iff_eq, h])]
      exact ih _

/-- No operation touches the key: `lastInserted` stays `none`. -/
lemma lastInserted_none (ops : List (Nat × V)) (k : Nat)
    (h : ∀ kv ∈ ops, kv.1 ≠ k) : lastInserted ops k = none := by
  induction ops with
  | nil => rfl
  | cons e rest ih =>
    unfold lastInserted at ih ⊢
    simp only [List.foldl_cons]
    rw [if_neg (h e (List.mem_cons_self _ _))]
    exact ih (fun kv hkv => h kv (List.mem_cons_of_mem _ hkv))

/-- Every table the store's API reaches satisfies the invariant. -/
lemma applyOps_inv (ops : List (Nat × V)) : StoreInv (applyOps ops) := by
  have hstep : ∀ (l : List (Nat × V)) (t : HashTableWChains V), StoreInv t →
      StoreInv (l.foldl (fun t kv => t.insert kv.1 kv.2) t) := by
    intro l
    induction l with
    | nil => intro t h; exact h
    | cons e rest ih =>
      intro t h
      simp only [List.foldl_cons]
      exact ih _ (insert_inv_spec t e.1 e.2 h).1
  refine hstep ops (empty V 64) ⟨empty_WF 64 (by omega), ?_, ?_⟩
  · unfold empty
    rw [flatten_replicate_nil]
    rfl
  · unfold empty
    simp

end HashTableWChains

/-! ## C8 — the keyed store's operation contract -/

/-- C8: for any insert sequence on the keyed store, lookup returns the
most recently inserted value per key (insert is an upsert) and not-found
for never-inserted keys; a resize (at any nesting depth) preserves every
lookup and exactly the stored key/value pairs; on any table satisfying
the reachable-store invariant — well-formed, honest size counter, load
factor at or below 3/4 — a growing insert that pushes the load factor
over 3/4 doubles the bucket count; every table the store's API reaches
satisfies that invariant; and lookups depend only on the operations
touching the queried key. -/
theorem keyed_store_contract (V : Type) :
    (∀ ops : List (Nat × V), ∀ k,
      HashTableWChains.search (HashTableWChains.applyOps ops) k =
        HashTableWChains.lastInserted ops k) ∧
    (∀ ops : List (Nat × V), ∀ k, (∀ kv ∈ ops, kv.1 ≠ k) →
      HashTableWChains.search (HashTableWChains.applyOps ops) k = none) ∧
    (∀ fuel : Nat, ∀ t : HashTableWChains V, HashTableWChains.WF t →
      (∀ k, HashTableWChains.search (HashTableWChains._resize fuel t) k =
        HashTableWChains.search t k) ∧
      (∀ kv : Nat × V,
        kv ∈ (HashTableWChains._resize fuel t).table.flatten ↔
          kv ∈ t.table.flatten)) ∧
    (∀ t : HashTableWChains V, ∀ k v, HashTableWChains.StoreInv t →
      HashTableWChains.search t k = none →
      (t.size + 1) * 4 > t.table.length * 3 →
      (HashTableWChains.insert t k v).table.length = t.table.length * 2) ∧
    (∀ ops : List (Nat × V),
      HashTableWChains.StoreInv (HashTableWChains.applyOps ops)) ∧
    (∀ ops1 ops2 : List (Nat × V), ∀ k,
      ops1.filter (fun kv => kv.1 == k) = ops2.filter (fun kv => kv.1 == k) →
      HashTableWChains.search (HashTableWChains.applyOps ops1) k =
        HashTableWChains.search (HashTableWChains.applyOps ops2) k) := by
  have hmain : ∀ ops : List (Nat × V), ∀ k,
      HashTableWChains.search (HashTableWChains.applyOps ops) k =
        HashTableWChains.lastInserted ops k := by
    intro ops k
    unfold HashTableWChains.applyOps HashTableWChains.lastInserted
    rw [HashTableWChains.foldl_insert_search ops k _
      (HashTableWChains.empty_WF 64 (by omega)),
      HashTableWChains.search_empty]
  refine ⟨hmain, ?_, ?_, ?_, HashTableWChains.applyOps_inv, ?_⟩
  · intro ops k h
    rw [hmain, HashTableWChains.lastInserted_none ops k h]
  · intro fuel t hwf
    have hwf2 := HashTableWChains._resize_WF fuel t hwf.1
    refine ⟨fun k => HashTableWChains._resize_search fuel t hwf k, ?_⟩
    intro kv
    rcases kv with ⟨k, v⟩
    rw [← HashTableWChains.search_eq_some_iff _ hwf2,
      ← HashTableWChains.search_eq_some_iff _ hwf,
      HashTableWChains._resize_search fuel t hwf]
  · intro t k v hinv hnone htrig
    exact (HashTableWChains.insert_inv_spec t k v hinv).2 hnone (by omega)
  · intro ops1 ops2 k hfil
    rw [hmain, hmain, HashTableWChains.lastInserted_filter ops1 k,
      HashTableWChains.lastInserted_filter ops2 k, hfil]

/-! ## Witnesses for the hypothesis-bearing theorems above -/

/-- A package with both timestamps set, for the status monotonicity
witness. -/
def pkgWitness : Package :=
  { mkPkg 5 "hub st" with departureTime := some 480, deliveryTime := some 520 }

/-- Witness for the C9 theorem at a concrete package and times. -/
theorem statusUpdate_monotone_witness :
    (100 : ℚ) ≤ 700 ∧
      (statusRank (statusUpdate pkgWitness 100) ≤
          statusRank (statusUpdate pkgWitness 700) ∧
        (statusUpdate pkgWitness 100 = .delivered →
          statusUpdate pkgWitness 700 = .delivered)) :=
  ⟨by norm_num, statusUpdate_monotone pkgWitness 100 700 (by norm_num)⟩

/-- Witness for the C6 theorem: an out-of-range coordinate at a concrete
matrix falls back to 7.5 with the counter bumped. -/
theorem dist_between_fallback_witness :
    (([[some 3]] : DistMatrix).length ≤ 5 ∨ ([[some 3]] : DistMatrix).length ≤ 0) ∧
      dist_between [[some 3]] (some 5) (some 0) = (7.5, true) :=
  ⟨Or.inl (by norm_num),
    (dist_between_fallback_discipline [[some 3]]).2.2.2.1 5 0 (Or.inl (by norm_num))⟩

/-- The sentinel bound holds of the concrete two-candidate scenario. -/
lemma infoBonus_bound :
    ∀ c ∈ infoBonus,
      c.arr + c.d + (c.p.ID : ℚ) * (1 / 1000000) < SENTINEL ∧
      c.d + (c.p.ID : ℚ) * (1 / 1000000) < SENTINEL := by
  intro c hc
  simp only [infoBonus, List.mem_cons, List.not_mem_nil, or_false] at hc
  rcases hc with rfl | rfl <;> constructor <;> norm_num [SENTINEL, mkPkg]

/-- The concrete two-candidate scenario has an on-time candidate. -/
lemma infoBonus_ontime : ∃ c ∈ infoBonus, isOnTimeCand c :=
  ⟨⟨mkPkg 1 "near st", 3 / 100, 1 / 10, some 10⟩, by simp [infoBonus],
    10, rfl, by norm_num⟩

/-- Witness for the C2 theorem at the concrete scenario. -/
theorem routing_tier_priority_witness :
    (∀ c ∈ infoBonus,
      c.arr + c.d + (c.p.ID : ℚ) * (1 / 1000000) < SENTINEL ∧
      c.d + (c.p.ID : ℚ) * (1 / 1000000) < SENTINEL) ∧
    ((∃ c ∈ infoBonus, isOnTimeCand c) →
      ∃ c ∈ infoBonus, isOnTimeCand c ∧ selectFrom infoBonus = some (c.p, c.d)) :=
  ⟨infoBonus_bound, (routing_tier_priority infoBonus infoBonus_bound).1⟩

/-- Witness for the amended C3 theorem at the concrete scenario. -/
theorem ontime_selection_minimizes_witness :
    (∀ c ∈ infoBonus, c.arr + c.d + (c.p.ID : ℚ) * (1 / 1000000) < SENTINEL) ∧
    (∃ c ∈ infoBonus, isOnTimeCand c) ∧
    ∃ h ∈ (partition3 infoBonus).1,
      selectFrom infoBonus = some (h.p, h.d) ∧
      ∀ h2 ∈ (partition3 infoBonus).1, hscore h ≤ hscore h2 :=
  ⟨fun c hc => (infoBonus_bound c hc).1, infoBonus_ontime,
    (ontime_selection_minimizes_adjusted_score infoBonus
      (fun c hc => (infoBonus_bound c hc).1) infoBonus_ontime).1⟩

/-- A two-bucket table holding one entry: it satisfies the reachable-store
invariant, and one more insert pushes its load factor over 3/4. -/
def wtable : HashTableWChains Nat := ⟨[[(0, 5)], []], 1⟩

/-- Witness for the C8 theorem: a growing insert on an invariant-holding
two-bucket table at the load threshold doubles the bucket count. -/
theorem keyed_store_contract_witness :
    (HashTableWChains.StoreInv wtable ∧
      HashTableWChains.search wtable 3 = none ∧
      (wtable.size + 1) * 4 > wtable.table.length * 3) ∧
    (HashTableWChains.insert wtable 3 9).table.length = wtable.table.length * 2 := by
  have hwf : HashTableWChains.WF wtable := by
    refine ⟨by norm_num [wtable], ?_, ?_⟩
    · intro i hi kv hkv
      simp only [wtable, List.length_cons, List.length_nil] at hi hkv ⊢
      match i, hi with
      | 0, _ =>
        simp only [List.getD] at hkv
        rcases (by simpa using hkv : kv = (0, 5)) with rfl
        rfl
      | 1, _ =>
        simp only [List.getD] at hkv
        simp at hkv
    · intro i hi
      simp only [wtable, List.length_cons, List.length_nil] at hi ⊢
      match i, hi with
      | 0, _ => simp [List.getD]
      | 1, _ => simp [List.getD]
  have hinv : HashTableWChains.StoreInv wtable :=
    ⟨hwf, by norm_num [wtable], by norm_num [wtable]⟩
  have hs : HashTableWChains.search wtable 3 = none := by rfl
  have ht : (wtable.size + 1) * 4 > wtable.table.length * 3 := by
    norm_num [wtable]
  exact ⟨⟨hinv, hs, ht⟩,
    (keyed_store_contract Nat).2.2.2.1 wtable 3 9 hinv hs ht⟩

/-! ## Routing-loop infrastructure -/

/-- All numeric matrix cells are nonnegative (`getD 0` reads a numeric
cell's value and is 0 on a missing cell). -/
def NonnegM (m : DistMatrix) : Prop :=
  ∀ row ∈ m, ∀ cell ∈ row, 0 ≤ cell.getD 0

/-- All numeric matrix cells lie in `[0, 10^6]`. -/
def BoundedM (m : DistMatrix) : Prop :=
  ∀ row ∈ m, ∀ cell ∈ row, 0 ≤ cell.getD 0 ∧ cell.getD 0 ≤ 1000000

/-- `getD` yields the default or a member. -/
lemma getD_mem_or {α : Type} (l : List α) (n : Nat) (d : α) :
    l.getD n d = d ∨ l.getD n d ∈ l := by
  rw [List.getD_eq_getElem?_getD]
  cases h : l[n]? with
  | none => left; rfl
  | some x =>
    right
    simpa using List.getElem?_mem h

/-- Any value `dist_between` can return is a matrix cell value or the
fixed 7.5 fallback. -/
lemma dist_val_cases (m : DistMatrix) (i j : Option Nat) :
    dist_val m i j = 7.5 ∨
      ∃ row ∈ m, ∃ q, some q ∈ row ∧ dist_val m i j = q := by
  rcases i with _ | i
  · left
    simp [dist_val, dist_between]
  rcases j with _ | j
  · left
    simp [dist_val, dist_between]
  by_cases hr : i ≥ m.length ∨ j ≥ m.length
  · left
    simp only [dist_val, dist_between]
    rw [if_pos hr]
  · have hr2 := hr
    push_neg at hr2
    have hrowi : m.getD i [] ∈ m := by
      rcases getD_mem_or m i [] with h | h
      · rw [List.getD_eq_getElem?_getD, List.getElem?_eq_getElem hr2.1] at h
        rw [List.getD_eq_getElem?_getD, List.getElem?_eq_getElem hr2.1, h]
        exact h ▸ List.getElem_mem hr2.1
      · exact h
    have hrowj : m.getD j [] ∈ m := by
      rcases getD_mem_or m j [] with h | h
      · rw [List.getD_eq_getElem?_getD, List.getElem?_eq_getElem hr2.2] at h
        rw [List.getD_eq_getElem?_getD, List.getElem?_eq_getElem hr2.2, h]
        exact h ▸ List.getElem_mem hr2.2
      · exact h
    cases hf : (m.getD i []).getD j none with
    | some q =>
      right
      refine ⟨m.getD i [], hrowi, q, ?_, ?_⟩
      · rcases getD_mem_or (m.getD i []) j none with h | h
        · rw [hf] at h; cases h
        · rw [hf] at h; exact h
      · simp only [dist_val, dist_between]
        rw [if_neg hr, hf]
    | none =>
      cases hf2 : (m.getD j []).getD i none with
      | some q2 =>
        right
        refine ⟨m.getD j [], hrowj, q2, ?_, ?_⟩
        · rcases getD_mem_or (m.getD j []) i none with h | h
          · rw [hf2] at h; cases h
          · rw [hf2] at h; exact h
        · simp only [dist_val, dist_between]
          rw [if_neg hr, hf, hf2]
      | none =>
        left
        simp only [dist_val, dist_between]
        rw [if_neg hr, hf, hf2]

/-- Distances are nonnegative over a nonnegative matrix. -/
lemma dist_val_nonneg {m : DistMatrix} (hm : NonnegM m) (i j : Option Nat) :
    0 ≤ dist_val m i j := by
  rcases dist_val_cases m i j with h | ⟨row, hrow, q, hq, h⟩
  · rw [h]; norm_num
  · rw [h]
    have := hm row hrow (some q) hq
    simpa using this

/-- Distances stay within `[0, 10^6]` over a bounded matrix. -/
lemma dist_val_bounds {m : DistMatrix} (hm : BoundedM m) (i j : Option Nat) :
    0 ≤ dist_val m i j ∧ dist_val m i j ≤ 1000000 := by
  rcases dist_val_cases m i j with h | ⟨row, hrow, q, hq, h⟩
  · rw [h]; norm_num
  · rw [h]
    have := hm row hrow (some q) hq
    simpa using this

/-- An on-time selection names a tier member. -/
lemma selOntime_eq_some {l : List HCand} {p : Package} {d : ℚ}
    (h : selOntime l = some (p, d)) : ∃ x ∈ l, x.p = p ∧ x.d = d := by
  unfold selOntime at h
  rcases scoreFold_cases hscore (fun h => (h.p, h.d)) l
      ((none : Option (Package × ℚ)), SENTINEL) with h1 | ⟨x, hx, h2⟩
  · rw [h1] at h; cases h
  · rw [h2] at h
    injection h with h
    exact ⟨x, hx, congrArg Prod.fst h, congrArg Prod.snd h⟩

/-- An unconstrained selection names a tier member. -/
lemma selEod_eq_some {l : List Cand} {p : Package} {d : ℚ}
    (h : selEod l = some (p, d)) : ∃ x ∈ l, x.p = p ∧ x.d = d := by
  unfold selEod at h
  rcases scoreFold_cases (fun c => c.d + (c.p.ID : ℚ) * (1 / 1000000))
      (fun c => (c.p, c.d)) l ((none : Option (Package × ℚ)), SENTINEL) with
    h1 | ⟨x, hx, h2⟩
  · rw [h1] at h; cases h
  · rw [h2] at h
    injection h with h
    exact ⟨x, hx, congrArg Prod.fst h, congrArg Prod.snd h⟩

/-- A late selection names a tier member. -/
lemma selLate_eq_some {l : List HCand} {p : Package} {d : ℚ}
    (h : selLate l = some (p, d)) : ∃ x ∈ l, x.p = p ∧ x.d = d := by
  rcases l with _ | ⟨h0, t⟩
  · cases h
  · unfold selLate at h
    injection h with h
    exact ⟨_, foldl_choice_mem t h0,
      congrArg Prod.fst h, congrArg Prod.snd h⟩

/-- Whatever `selectFrom` returns names an `info` candidate. -/
lemma selectFrom_mem {info : List Cand} {p : Package} {d : ℚ}
    (h : selectFrom info = some (p, d)) : ∃ c ∈ info, c.p = p ∧ c.d = d := by
  simp only [selectFrom] at h
  split_ifs at h with h1 h2
  · rcases selOntime_eq_some h with ⟨x, hx, hp, hd⟩
    rcases ontime_entry_src hx with ⟨c, hc, hcp, hcd, _, _, _⟩
    exact ⟨c, hc, hcp.trans hp, hcd.trans hd⟩
  · rcases selLate_eq_some h with ⟨x, hx, hp, hd⟩
    rcases late_entry_src hx with ⟨c, hc, hcp, hcd, _, _, _⟩
    exact ⟨c, hc, hcp.trans hp, hcd.trans hd⟩
  · rcases selEod_eq_some h with ⟨x, hx, hp, hd⟩
    rw [partition3_eod] at hx
    exact ⟨x, List.mem_of_mem_filter hx, hp, hd⟩

/-- Shape of an `info` entry. -/
lemma mkInfo_mem {A : List (List String)} {M : DistMatrix} {truck : Truck}
    {elig : List Package} {c : Cand} (h : c ∈ mkInfo A M truck elig) :
    c.p ∈ elig ∧
    c.d = dist_val M (some (address_idx A truck.currentLocation))
      (some (address_idx A c.p.street)) ∧
    c.arr = truck.time + travelMinutes c.d ∧
    c.dl = parse_deadline c.p.deadline := by
  unfold mkInfo at h
  rcases List.mem_map.1 h with ⟨p, hp, he⟩
  subst he
  exact ⟨hp, rfl, rfl, rfl⟩

/-- A package passing `eligible_now` has both gates satisfied. -/
lemma eligible_now_gates {p : Package} {t : ℚ} (h : eligible_now p t = true) :
    (p.ID = 9 → ADDR_FIX_TIME ≤ t) ∧
    (is_delayed p = true → DELAYED_TIME ≤ t) := by
  unfold eligible_now at h
  split_ifs at h with h1 h2
  constructor
  · intro h9
    by_contra hlt
    exact h1 ⟨h9, not_le.1 hlt⟩
  · intro hd
    by_contra hlt
    exact h2 ⟨hd, not_le.1 hlt⟩

/-- A package failing `eligible_now` is blocked by one of the two gates. -/
lemma not_eligible_now {p : Package} {t : ℚ} (h : eligible_now p t = false) :
    (p.ID = 9 ∧ t < ADDR_FIX_TIME) ∨ (is_delayed p = true ∧ t < DELAYED_TIME) := by
  unfold eligible_now at h
  split_ifs at h with h1 h2
  · exact Or.inl h1
  · exact Or.inr h2

/-- `apply_addr_fix_if_due` either leaves the record alone or—for
package 9 once the clock has reached 10:20—installs the corrected
street and ZIP. -/
lemma addr_fix_cases (p : Package) (now : ℚ) :
    apply_addr_fix_if_due p now = p ∨
      (p.ID = 9 ∧ ADDR_FIX_TIME ≤ now ∧
        apply_addr_fix_if_due p now =
          { p with street := p._corr_street, zip := p._corr_zip }) := by
  unfold apply_addr_fix_if_due
  split_ifs with h1 h2
  · exact Or.inr ⟨h1.1, h1.2, rfl⟩
  · exact Or.inl rfl
  · exact Or.inl rfl

/-- The address fix never touches identity, notes, deadline, timestamps,
vehicle, or the original/corrected address fields. -/
lemma addr_fix_frame (p : Package) (now : ℚ) :
    (apply_addr_fix_if_due p now).ID = p.ID ∧
    is_delayed (apply_addr_fix_if_due p now) = is_delayed p ∧
    (apply_addr_fix_if_due p now).deadline = p.deadline ∧
    (apply_addr_fix_if_due p now).departureTime = p.departureTime ∧
    (apply_addr_fix_if_due p now).deliveryTime = p.deliveryTime := by
  rcases addr_fix_cases p now with h | ⟨_, _, h⟩ <;> rw [h] <;>
    exact ⟨rfl, rfl, rfl, rfl, rfl⟩

/-- Folding `min` stays at or above any lower bound of the inputs. -/
lemma foldl_min_ge (x : ℚ) (ts : List ℚ) :
    ∀ t0 : ℚ, x ≤ t0 → (∀ t ∈ ts, x ≤ t) → x ≤ ts.foldl min t0 := by
  induction ts with
  | nil => intro t0 h _; exact h
  | cons t ts ih =>
    intro t0 h0 hall
    simp only [List.foldl_cons]
    exact ih _ (le_min h0 (hall t (List.mem_cons_self _ _)))
      (fun u hu => hall u (List.mem_cons_of_mem _ hu))

/-- Folding `min` lands on one of the inputs. -/
lemma foldl_min_mem (ts : List ℚ) :
    ∀ t0 : ℚ, ts.foldl min t0 ∈ t0 :: ts := by
  induction ts with
  | nil => intro t0; simp
  | cons t ts ih =>
    intro t0
    simp only [List.foldl_cons]
    rcases List.mem_cons.1 (ih (min t0 t)) with h | h
    · rcases le_total t0 t with hle | hle
      · rw [h, min_eq_left hle]; simp
      · rw [h, min_eq_right hle]; simp
    · simp [h]

/-- `nextTimes` is empty exactly when neither gate condition fires. -/
lemma nextTimes_eq_nil_iff (truck : Truck) (ob2 : List Package) :
    nextTimes truck ob2 = [] ↔
      ¬ (truck.time < DELAYED_TIME ∧ ob2.any (fun p => is_delayed p) = true) ∧
      ¬ (truck.time < ADDR_FIX_TIME ∧ ob2.any (fun p => p.ID = 9) = true) := by
  unfold nextTimes
  split_ifs with h1 h2 h2
  · exact iff_of_false (by simp) (fun hh => hh.1 h1)
  · exact iff_of_false (by simp) (fun hh => hh.1 h1)
  · exact iff_of_false (by simp) (fun hh => hh.2 h2)
  · exact iff_of_true rfl ⟨h1, h2⟩

/-- Every `nextTimes` entry is a strictly future gate threshold. -/
lemma nextTimes_mem {truck : Truck} {ob2 : List Package} {t : ℚ}
    (h : t ∈ nextTimes truck ob2) :
    truck.time < t ∧ (t = DELAYED_TIME ∨ t = ADDR_FIX_TIME) := by
  unfold nextTimes at h
  rcases List.mem_append.1 h with h1 | h1
  · by_cases hc : truck.time < DELAYED_TIME ∧ ob2.any (fun p => is_delayed p) = true
    · rw [if_pos hc] at h1
      simp only [List.mem_singleton] at h1
      refine ⟨by rw [h1]; exact hc.1, Or.inl h1⟩
    · rw [if_neg hc] at h1
      cases h1
  · by_cases hc : truck.time < ADDR_FIX_TIME ∧ ob2.any (fun p => p.ID = 9) = true
    · rw [if_pos hc] at h1
      simp only [List.mem_singleton] at h1
      refine ⟨by rw [h1]; exact hc.1, Or.inr h1⟩
    · rw [if_neg hc] at h1
      cases h1

/-- Full case analysis of one loop iteration. -/
lemma deliverStep_spec (A : List (List String)) (M : DistMatrix)
    (truck : Truck) (onboard delivered : List Package) :
    (onboard = [] ∧
      deliverStep A M truck onboard delivered =
        Sum.inl ⟨truck, delivered, [], .completed⟩) ∨
    (onboard ≠ [] ∧ eligOf truck onboard = [] ∧
      ((deliverStep A M truck onboard delivered =
          Sum.inl ⟨truck, delivered, fixedBoard truck onboard, .stopped⟩ ∧
        nextTimes truck (fixedBoard truck onboard) = []) ∨
      (∃ m : ℚ,
        deliverStep A M truck onboard delivered =
          Sum.inr ({ truck with time := m }, fixedBoard truck onboard, delivered) ∧
        truck.time < m ∧ (m = DELAYED_TIME ∨ m = ADDR_FIX_TIME)))) ∨
    (onboard ≠ [] ∧ eligOf truck onboard ≠ [] ∧
      ((selectFrom (mkInfo A M truck (eligOf truck onboard)) = none ∧
        deliverStep A M truck onboard delivered =
          Sum.inl ⟨truck, delivered, fixedBoard truck onboard, .crashed⟩) ∨
      (∃ sel_p sel_d,
        selectFrom (mkInfo A M truck (eligOf truck onboard)) = some (sel_p, sel_d) ∧
        deliverStep A M truck onboard delivered =
          Sum.inr
            ({ truck with
                miles := truck.miles + sel_d
                time := truck.time + travelMinutes sel_d
                currentLocation := sel_p.street
                packages := truck.packages ++ [sel_p.ID] },
              (fixedBoard truck onboard).erase sel_p,
              delivered ++ [{ sel_p with
                deliveryTime := some (truck.time + travelMinutes sel_d),
                status := .delivered }])))) := by
  rcases honb : onboard with _ | ⟨p0, rest⟩
  · left
    exact ⟨rfl, rfl⟩
  · right
    by_cases he : (eligOf truck (p0 :: rest)).isEmpty
    · left
      refine ⟨List.cons_ne_nil _ _, List.isEmpty_iff.1 he, ?_⟩
      by_cases hnt : (nextTimes truck (fixedBoard truck (p0 :: rest))).isEmpty
      · left
        refine ⟨?_, List.isEmpty_iff.1 hnt⟩
        simp only [deliverStep]
        rw [if_pos he, if_pos hnt]
      · right
        cases hntl : nextTimes truck (fixedBoard truck (p0 :: rest)) with
        | nil => exact absurd (List.isEmpty_iff.2 hntl) hnt
        | cons t0 ts =>
          have hallmem : ∀ t ∈ nextTimes truck (fixedBoard truck (p0 :: rest)),
              truck.time < t := fun t ht => (nextTimes_mem ht).1
          have hflt : (nextTimes truck (fixedBoard truck (p0 :: rest))).filter
              (fun t => decide (truck.time < t)) =
              nextTimes truck (fixedBoard truck (p0 :: rest)) := by
            apply List.filter_eq_self.2
            intro t ht
            simpa using hallmem t ht
          refine ⟨ts.foldl min t0, ?_, ?_, ?_⟩
          · simp only [deliverStep]
            rw [if_pos he, if_neg hnt, hflt, hntl]
          · exact hallmem _ (hntl ▸ foldl_min_mem ts t0)
          · exact (nextTimes_mem (hntl ▸ foldl_min_mem ts t0)).2
    · right
      refine ⟨List.cons_ne_nil _ _, fun hh => he (List.isEmpty_iff.2 hh), ?_⟩
      cases hsel : selectFrom (mkInfo A M truck (eligOf truck (p0 :: rest))) with
      | none =>
        left
        refine ⟨rfl, ?_⟩
        simp only [deliverStep]
        rw [if_neg he, hsel]
      | some pd =>
        right
        rcases pd with ⟨sp, sd⟩
        refine ⟨sp, sd, rfl, ?_⟩
        simp only [deliverStep]
        rw [if_neg he, hsel]

/-- The vehicle clock never moves backwards over a nonnegative matrix. -/
lemma deliverLoop_time_mono (A : List (List String)) (M : DistMatrix)
    (hM : NonnegM M) :
    ∀ (fuel : Nat) (truck : Truck) (onboard delivered : List Package),
      truck.time ≤ (deliverLoop A M fuel truck onboard delivered).truck.time := by
  intro fuel
  induction fuel with
  | zero => intro truck onboard delivered; exact le_refl _
  | succ fuel ih =>
    intro truck onboard delivered
    rcases deliverStep_spec A M truck onboard delivered with
      ⟨hob, hstep⟩ | ⟨hob, helig, hcase⟩ | ⟨hob, helig, hcase⟩
    · simp only [deliverLoop, hstep]
      exact le_refl _
    · rcases hcase with ⟨hstep, _⟩ | ⟨m, hstep, hlt, _⟩
      · simp only [deliverLoop, hstep]
        exact le_refl _
      · simp only [deliverLoop, hstep]
        exact le_trans (le_of_lt hlt) (ih _ _ _)
    · rcases hcase with ⟨_, hstep⟩ | ⟨sel_p, sel_d, hsel, hstep⟩
      · simp only [deliverLoop, hstep]
        exact le_refl _
      · simp only [deliverLoop, hstep]
        have hd : 0 ≤ sel_d := by
          rcases selectFrom_mem hsel with ⟨c, hc, _, hcd⟩
          rcases mkInfo_mem hc with ⟨_, hd2, _, _⟩
          rw [← hcd, hd2]
          exact dist_val_nonneg hM _ _
        have ht : truck.time ≤ truck.time + travelMinutes sel_d := by
          unfold travelMinutes TRUCK_SPEED
          nlinarith
        exact le_trans ht (ih _ _ _)

/-- The address-fix pass does not change the id sequence. -/
lemma fixedBoard_ids (truck : Truck) (ob : List Package) :
    (fixedBoard truck ob).map (fun p => p.ID) = ob.map (fun p => p.ID) := by
  unfold fixedBoard
  rw [List.map_map]
  exact List.map_congr_left (fun p _ => (addr_fix_frame p truck.time).1)

/-- Bookkeeping of the delivered order: on completion the final id list
is a permutation of the initial cargo ids; in every case the final id
list only extends the initial one with onboard ids, and every new
delivered record carries a delivery timestamp. -/
lemma deliverLoop_packages (A : List (List String)) (M : DistMatrix) :
    ∀ (fuel : Nat) (truck : Truck) (onboard delivered : List Package),
      ((deliverLoop A M fuel truck onboard delivered).outcome = .completed →
        (deliverLoop A M fuel truck onboard delivered).truck.packages.Perm
          (truck.packages ++ onboard.map (fun p => p.ID))) ∧
      (∀ pid ∈ (deliverLoop A M fuel truck onboard delivered).truck.packages,
        pid ∈ truck.packages ++ onboard.map (fun p => p.ID)) ∧
      (∀ p ∈ (deliverLoop A M fuel truck onboard delivered).delivered,
        p ∈ delivered ∨ p.deliveryTime.isSome = true) := by
  intro fuel
  induction fuel with
  | zero =>
    intro truck onboard delivered
    refine ⟨fun h => ?_, fun pid h => ?_, fun p h => ?_⟩
    · simp only [deliverLoop] at h
      cases h
    · simp only [deliverLoop] at h
      exact List.mem_append_left _ h
    · simp only [deliverLoop] at h
      exact Or.inl h
  | succ fuel ih =>
    intro truck onboard delivered
    rcases deliverStep_spec A M truck onboard delivered with
      ⟨hob, hstep⟩ | ⟨hob, helig, hcase⟩ | ⟨hob, helig, hcase⟩
    · subst hob
      refine ⟨fun h => ?_, fun pid h => ?_, fun p h => ?_⟩ <;>
        simp only [deliverLoop, hstep] at h ⊢
      · simp
      · exact List.mem_append_left _ h
      · exact Or.inl h
    · rcases hcase with ⟨hstep, hnt⟩ | ⟨m, hstep, hlt, hm⟩
      · refine ⟨fun h => ?_, fun pid h => ?_, fun p h => ?_⟩ <;>
          simp only [deliverLoop, hstep] at h ⊢
        · cases h
        · exact List.mem_append_left _ h
        · exact Or.inl h
      · have ihh := ih { truck with time := m } (fixedBoard truck onboard) delivered
        refine ⟨fun h => ?_, fun pid h => ?_, fun p h => ?_⟩ <;>
          simp only [deliverLoop, hstep] at h ⊢
        · have h2 := ihh.1 h
          rwa [fixedBoard_ids] at h2
        · have h2 := ihh.2.1 pid h
          rwa [fixedBoard_ids] at h2
        · exact ihh.2.2 p h
    · rcases hcase with ⟨hsel, hstep⟩ | ⟨sp, sd, hsel, hstep⟩
      · refine ⟨fun h => ?_, fun pid h => ?_, fun p h => ?_⟩ <;>
          simp only [deliverLoop, hstep] at h ⊢
        · cases h
        · exact List.mem_append_left _ h
        · exact Or.inl h
      · have hspmem : sp ∈ fixedBoard truck onboard := by
          rcases selectFrom_mem hsel with ⟨c, hc, hcp, _⟩
          rcases mkInfo_mem hc with ⟨hpe, _, _, _⟩
          rw [← hcp]
          exact List.mem_of_mem_filter hpe
        have hperm : (fixedBoard truck onboard).Perm
            (sp :: (fixedBoard truck onboard).erase sp) :=
          List.perm_cons_erase hspmem
        have hidperm : ((fixedBoard truck onboard).map (fun p => p.ID)).Perm
            (sp.ID :: ((fixedBoard truck onboard).erase sp).map (fun p => p.ID)) :=
          hperm.map _
        have ihh := ih
          { truck with
              miles := truck.miles + sd
              time := truck.time + travelMinutes sd
              currentLocation := sp.street
              packages := truck.packages ++ [sp.ID] }
          ((fixedBoard truck onboard).erase sp)
          (delivered ++ [{ sp with
            deliveryTime := some (truck.time + travelMinutes sd),
            status := .delivered }])
        refine ⟨fun h => ?_, fun pid h => ?_, fun p h => ?_⟩ <;>
          simp only [deliverLoop, hstep] at h ⊢
        · have h2 := ihh.1 h
          rw [List.append_assoc, List.singleton_append] at h2
          refine h2.trans ?_
          rw [← fixedBoard_ids truck onboard]
          exact List.Perm.append_left _ hidperm.symm
        · have h2 := ihh.2.1 pid h
          rw [List.append_assoc, List.singleton_append] at h2
          rcases List.mem_append.1 h2 with h3 | h3
          · exact List.mem_append_left _ h3
          · rcases List.mem_cons.1 h3 with rfl | h4
            · refine List.mem_append_right _ ?_
              rw [← fixedBoard_ids truck onboard]
              exact List.mem_map_of_mem _ hspmem
            · refine List.mem_append_right _ ?_
              rw [← fixedBoard_ids truck onboard]
              rcases List.mem_map.1 h4 with ⟨q, hq, he⟩
              rw [← he]
              exact List.mem_map_of_mem _ ((List.erase_sublist _ _).mem hq)
        · rcases ihh.2.2 p h with h2 | h2
          · rcases List.mem_append.1 h2 with h3 | h3
            · exact Or.inl h3
            · rcases List.mem_cons.1 h3 with rfl | h4
              · exact Or.inr rfl
              · cases h4
          · exact Or.inr h2

/-- The instantiated onboard ids are exactly the cargo ids present in the
store (stores map each id to a package carrying that id). -/
lemma initOnboard_ids (store : Nat → Option Package) (truck : Truck)
    (hcoh : ∀ pid p, store pid = some p → p.ID = pid) :
    (initOnboard store truck).map (fun p => p.ID) =
      truck.packages.filter (fun pid => (store pid).isSome) := by
  unfold initOnboard
  generalize truck.packages = l
  induction l with
  | nil => rfl
  | cons pid rest ihl =>
    simp only [List.filterMap_cons, List.filter_cons]
    cases hst : store pid with
    | none => simpa [hst] using ihl
    | some p0 =>
      have hid := hcoh pid p0 hst
      cases hdep : p0.departureTime <;> simp [hst, hdep, hid, ihl]

/-! ## C7 — every cargo id delivered exactly once, by one vehicle -/

/-- C7: when a wave runs to completion, each cargo id present in the
store appears exactly once in the vehicle's final delivered order; the
delivered order contains only manifest ids; every delivered record has
its delivery timestamp set; and two vehicles with disjoint manifests
produce disjoint delivered orders. -/
theorem cargo_delivered_exactly_once
    (A : List (List String)) (M : DistMatrix) (store : Nat → Option Package)
    (truck : Truck) (fuel : Nat)
    (hcoh : ∀ pid p, store pid = some p → p.ID = pid)
    (hnd : truck.packages.Nodup)
    (hc : (deliver_run A M store truck fuel).outcome = .completed) :
    (∀ pid ∈ truck.packages, (store pid).isSome = true →
      (deliver_run A M store truck fuel).truck.packages.count pid = 1) ∧
    (∀ pid ∈ (deliver_run A M store truck fuel).truck.packages,
      pid ∈ truck.packages) ∧
    (∀ p ∈ (deliver_run A M store truck fuel).delivered,
      p.deliveryTime.isSome = true) ∧
    (∀ (A2 : List (List String)) (M2 : DistMatrix)
      (store2 : Nat → Option Package) (truck2 : Truck) (fuel2 : Nat),
      (∀ pid p, store2 pid = some p → p.ID = pid) →
      (∀ pid, pid ∈ truck.packages → pid ∉ truck2.packages) →
      ∀ pid ∈ (deliver_run A M store truck fuel).truck.packages,
        pid ∉ (deliver_run A2 M2 store2 truck2 fuel2).truck.packages) := by
  simp only [deliver_run] at hc ⊢
  have hl := deliverLoop_packages A M fuel { truck with packages := [] }
    (initOnboard store truck) []
  have hsub : ∀ pid ∈ (deliverLoop A M fuel { truck with packages := [] }
      (initOnboard store truck) []).truck.packages, pid ∈ truck.packages := by
    intro pid h
    have h2 := hl.2.1 pid h
    simp only [List.nil_append] at h2
    rw [initOnboard_ids store truck hcoh] at h2
    exact List.mem_of_mem_filter h2
  refine ⟨?_, hsub, ?_, ?_⟩
  · intro pid hpid hsome
    have hperm := hl.1 hc
    simp only [List.nil_append] at hperm
    rw [initOnboard_ids store truck hcoh] at hperm
    rw [hperm.count_eq]
    have hmem : pid ∈ truck.packages.filter (fun pid => (store pid).isSome) :=
      List.mem_filter.2 ⟨hpid, hsome⟩
    exact List.count_eq_one_of_mem (hnd.filter _) hmem
  · intro p hp
    rcases hl.2.2 p hp with h | h
    · cases h
    · exact h
  · intro A2 M2 store2 truck2 fuel2 hcoh2 hdisj pid h1 h2
    have hm1 := hsub pid h1
    have hl2 := deliverLoop_packages A2 M2 fuel2 { truck2 with packages := [] }
      (initOnboard store2 truck2) []
    have hm2 := hl2.2.1 pid h2
    simp only [List.nil_append] at hm2
    rw [initOnboard_ids store2 truck2 hcoh2] at hm2
    exact hdisj pid hm1 (List.mem_of_mem_filter hm2)

/-- Departure-stamp invariant of an onboard package: the stamp exists, is
at or above the wave start and every applicable gate, and is the least
such value (the source stamps `max(start, gates)`). -/
def DepInv (start : ℚ) (p : Package) : Prop :=
  ∃ dep, p.departureTime = some dep ∧ start ≤ dep ∧
    (is_delayed p = true → DELAYED_TIME ≤ dep) ∧
    (p.ID = 9 → ADDR_FIX_TIME ≤ dep) ∧
    ∀ s, start ≤ s → (is_delayed p = true → DELAYED_TIME ≤ s) →
      (p.ID = 9 → ADDR_FIX_TIME ≤ s) → dep ≤ s

/-- Delivery-stamp invariant of a delivered package (the C1 property). -/
def DelInv (start : ℚ) (p : Package) : Prop :=
  ∃ dep dt, p.departureTime = some dep ∧ p.deliveryTime = some dt ∧
    start ≤ dep ∧ dep ≤ dt ∧
    (is_delayed p = true → DELAYED_TIME ≤ dep) ∧
    (p.ID = 9 → ADDR_FIX_TIME ≤ dt)

/-- The address fix preserves the departure-stamp invariant. -/
lemma DepInv_fix {start : ℚ} {p : Package} (now : ℚ) (h : DepInv start p) :
    DepInv start (apply_addr_fix_if_due p now) := by
  obtain ⟨hid, hdel, -, hdep, -⟩ := addr_fix_frame p now
  unfold DepInv at h ⊢
  rw [hid, hdel, hdep]
  exact h

/-- Travel time is nonnegative for a nonnegative distance. -/
lemma travelMinutes_nonneg {d : ℚ} (hd : 0 ≤ d) : 0 ≤ travelMinutes d := by
  unfold travelMinutes TRUCK_SPEED
  positivity

/-- `initOnboard` stamps every freshly carried package with the gated
departure time, which satisfies the departure-stamp invariant. -/
lemma initOnboard_DepInv (store : Nat → Option Package) (truck : Truck)
    (hfresh : ∀ pid p, store pid = some p → p.departureTime = none) :
    ∀ p ∈ initOnboard store truck, DepInv truck.departTime p := by
  have hDF : DELAYED_TIME < ADDR_FIX_TIME := by
    norm_num [DELAYED_TIME, ADDR_FIX_TIME]
  intro p hp
  unfold initOnboard at hp
  rcases List.mem_filterMap.1 hp with ⟨pid, _, hsome⟩
  cases hst : store pid with
  | none => rw [hst] at hsome; cases hsome
  | some p0 =>
    rw [hst] at hsome
    have hdep0 : p0.departureTime = none := hfresh pid p0 hst
    simp only [hdep0] at hsome
    cases hsome
    unfold DepInv
    split_ifs with hc1 hc2 hc2
    · refine ⟨_, rfl, ?_, ?_, ?_, ?_⟩
      · linarith [hc1.2]
      · intro _; exact le_of_lt hDF
      · intro _; exact le_refl _
      · intro s _ _ h9; exact h9 hc2.1
    · refine ⟨_, rfl, ?_, ?_, ?_, ?_⟩
      · exact le_of_lt hc1.2
      · intro _; exact le_refl _
      · intro h9; exact absurd ⟨h9, hDF⟩ hc2
      · intro s _ hdel _; exact hdel hc1.1
    · refine ⟨_, rfl, ?_, ?_, ?_, ?_⟩
      · exact le_of_lt hc2.2
      · intro _; exact le_of_lt hDF
      · intro _; exact le_refl _
      · intro s _ _ h9; exact h9 hc2.1
    · refine ⟨_, rfl, ?_, ?_, ?_, ?_⟩
      · exact le_refl _
      · intro hd
        exact le_of_not_lt (fun hh => hc1 ⟨hd, hh⟩)
      · intro h9
        exact le_of_not_lt (fun hh => hc2 ⟨h9, hh⟩)
      · intro s hs _ _; exact hs

/-- Every package the loop delivers satisfies the delivery-stamp
invariant, given the onboard departure-stamp invariant. -/
lemma deliverLoop_delivered_inv (A : List (List String)) (M : DistMatrix)
    (hM : NonnegM M) (start : ℚ) :
    ∀ (fuel : Nat) (truck : Truck) (onboard delivered : List Package),
      start ≤ truck.time →
      (∀ p ∈ onboard, DepInv start p) →
      (∀ p ∈ delivered, DelInv start p) →
      ∀ p ∈ (deliverLoop A M fuel truck onboard delivered).delivered,
        DelInv start p := by
  intro fuel
  induction fuel with
  | zero =>
    intro truck onboard delivered hst hob hdel p hp
    simp only [deliverLoop] at hp
    exact hdel p hp
  | succ fuel ih =>
    intro truck onboard delivered hst hob hdel
    have hobfix : ∀ p ∈ fixedBoard truck onboard, DepInv start p := by
      intro p hp
      rcases List.mem_map.1 hp with ⟨q, hq, he⟩
      rw [← he]
      exact DepInv_fix truck.time (hob q hq)
    rcases deliverStep_spec A M truck onboard delivered with
      ⟨hob0, hstep⟩ | ⟨hob0, helig, hcase⟩ | ⟨hob0, helig, hcase⟩
    · intro p hp
      simp only [deliverLoop, hstep] at hp
      exact hdel p hp
    · rcases hcase with ⟨hstep, hnt⟩ | ⟨m, hstep, hlt, hm⟩
      · intro p hp
        simp only [deliverLoop, hstep] at hp
        exact hdel p hp
      · intro p hp
        simp only [deliverLoop, hstep] at hp
        exact ih { truck with time := m } (fixedBoard truck onboard) delivered
          (le_trans hst (le_of_lt hlt)) hobfix hdel p hp
    · rcases hcase with ⟨hsel, hstep⟩ | ⟨sp, sd, hsel, hstep⟩
      · intro p hp
        simp only [deliverLoop, hstep] at hp
        exact hdel p hp
      · -- facts about the selected package
        rcases selectFrom_mem hsel with ⟨c, hc, hcp, hcd⟩
        rcases mkInfo_mem hc with ⟨hpe, hd2, _, _⟩
        have hspel : sp ∈ eligOf truck onboard := hcp ▸ hpe
        have hspfix : sp ∈ fixedBoard truck onboard :=
          List.mem_of_mem_filter hspel
        have hgate : eligible_now sp truck.time = true := by
          have := (List.mem_filter.1 hspel).2
          simpa using this
        have hgates := eligible_now_gates hgate
        have hdnn : 0 ≤ sd := by
          rw [← hcd, hd2]
          exact dist_val_nonneg hM _ _
        have htt : truck.time ≤ truck.time + travelMinutes sd :=
          le_add_of_nonneg_right (travelMinutes_nonneg hdnn)
        obtain ⟨dep, hdep, hsdep, hdeldep, h9dep, hub⟩ := hobfix sp hspfix
        have hdeptime : dep ≤ truck.time :=
          hub truck.time hst hgates.2 hgates.1
        have hnewdel : DelInv start
            { sp with
                deliveryTime := some (truck.time + travelMinutes sd)
                status := .delivered } := by
          refine ⟨dep, truck.time + travelMinutes sd, hdep, rfl, hsdep,
            le_trans hdeptime htt, hdeldep, ?_⟩
          intro h9
          exact le_trans (hgates.1 h9) htt
        intro p hp
        simp only [deliverLoop, hstep] at hp
        refine ih _ ((fixedBoard truck onboard).erase sp) _
          (le_trans hst htt) ?_ ?_ p hp
        · intro q hq
          exact hobfix q ((List.erase_sublist _ _).mem hq)
        · intro q hq
          rcases List.mem_append.1 hq with h1 | h1
          · exact hdel q h1
          · rcases List.mem_cons.1 h1 with rfl | h2
            · exact hnewdel
            · cases h2

/-! ## C1 — delivery and departure timestamps respect the gates -/

/-- C1: after a wave, every delivered package has
`deliveryTime ≥ departureTime ≥ wave start`; a delay-gated package
departs no earlier than 09:05; package 9 is delivered no earlier than
10:20.  Stated over any nonnegative distance matrix, a store of fresh
(not yet departed) packages, and a vehicle whose clock starts at or
after its wave start. -/
theorem delivered_timestamps_gated
    (A : List (List String)) (M : DistMatrix) (store : Nat → Option Package)
    (truck : Truck) (fuel : Nat)
    (hM : NonnegM M)
    (hfresh : ∀ pid p, store pid = some p → p.departureTime = none)
    (hdt : truck.departTime ≤ truck.time) :
    ∀ p ∈ (deliver_run A M store truck fuel).delivered,
      ∃ dep dt, p.departureTime = some dep ∧ p.deliveryTime = some dt ∧
        truck.departTime ≤ dep ∧ dep ≤ dt ∧
        (is_delayed p = true → DELAYED_TIME ≤ dep) ∧
        (p.ID = 9 → ADDR_FIX_TIME ≤ dt) := by
  intro p hp
  simp only [deliver_run] at hp
  exact deliverLoop_delivered_inv A M hM truck.departTime fuel
    { truck with packages := [] } (initOnboard store truck) [] hdt
    (initOnboard_DepInv store truck hfresh) (fun q hq => absurd hq (List.not_mem_nil q))
    p hp

/-- Address provenance of an in-flight package record: it stems from a
stored cargo package, agrees with it on identity, city, state and the
original/corrected address fields, and its street/ZIP are either still
the stored ones or (package 9 only, once the clock passed 10:20) the
corrected ones. -/
def AddrProv (store : Nat → Option Package) (cargo : List Nat) (t : ℚ)
    (p : Package) : Prop :=
  ∃ pid ∈ cargo, ∃ p0, store pid = some p0 ∧
    p.ID = p0.ID ∧ p.city = p0.city ∧ p.state = p0.state ∧
    p._orig_street = p0._orig_street ∧ p._orig_zip = p0._orig_zip ∧
    p._corr_street = p0._corr_street ∧ p._corr_zip = p0._corr_zip ∧
    ((p.street = p0.street ∧ p.zip = p0.zip) ∨
      (p.ID = 9 ∧ p.street = p0._corr_street ∧ p.zip = p0._corr_zip ∧
        ADDR_FIX_TIME ≤ t))

/-- Provenance is stable as the clock advances. -/
lemma AddrProv_mono {store : Nat → Option Package} {cargo : List Nat}
    {t t2 : ℚ} (h : t ≤ t2) {p : Package}
    (hp : AddrProv store cargo t p) : AddrProv store cargo t2 p := by
  obtain ⟨pid, hpid, p0, hst, h1, h2, h3, h4, h5, h6, h7, h8⟩ := hp
  refine ⟨pid, hpid, p0, hst, h1, h2, h3, h4, h5, h6, h7, ?_⟩
  rcases h8 with h8 | ⟨ha, hb, hc, hd⟩
  · exact Or.inl h8
  · exact Or.inr ⟨ha, hb, hc, le_trans hd h⟩

/-- The routing-side address fix preserves provenance. -/
lemma AddrProv_fix {store : Nat → Option Package} {cargo : List Nat}
    {t : ℚ} {p : Package} (hp : AddrProv store cargo t p) :
    AddrProv store cargo t (apply_addr_fix_if_due p t) := by
  rcases addr_fix_cases p t with he | ⟨h9, hle, he⟩
  · rw [he]; exact hp
  · rw [he]
    obtain ⟨pid, hpid, p0, hst, h1, h2, h3, h4, h5, h6, h7, _⟩ := hp
    exact ⟨pid, hpid, p0, hst, h1, h2, h3, h4, h5, h6, h7,
      Or.inr ⟨h9, h6, h7, hle⟩⟩

/-- All records the loop ever hands back (delivered or left over) keep
their address provenance, relative to the final clock. -/
lemma deliverLoop_addr (A : List (List String)) (M : DistMatrix)
    (hM : NonnegM M) (store : Nat → Option Package) (cargo : List Nat) :
    ∀ (fuel : Nat) (truck : Truck) (onboard delivered : List Package),
      (∀ p ∈ onboard, AddrProv store cargo truck.time p) →
      (∀ p ∈ delivered, AddrProv store cargo truck.time p) →
      ∀ p ∈ (deliverLoop A M fuel truck onboard delivered).delivered ++
          (deliverLoop A M fuel truck onboard delivered).leftover,
        AddrProv store cargo
          (deliverLoop A M fuel truck onboard delivered).truck.time p := by
  intro fuel
  induction fuel with
  | zero =>
    intro truck onboard delivered hob hdel p hp
    simp only [deliverLoop] at hp ⊢
    rcases List.mem_append.1 hp with h | h
    · exact hdel p h
    · exact hob p h
  | succ fuel ih =>
    intro truck onboard delivered hob hdel
    have hobfix : ∀ p ∈ fixedBoard truck onboard,
        AddrProv store cargo truck.time p := by
      intro p hp
      rcases List.mem_map.1 hp with ⟨q, hq, he⟩
      rw [← he]
      exact AddrProv_fix (hob q hq)
    rcases deliverStep_spec A M truck onboard delivered with
      ⟨hob0, hstep⟩ | ⟨hob0, helig, hcase⟩ | ⟨hob0, helig, hcase⟩
    · intro p hp
      simp only [deliverLoop, hstep] at hp ⊢
      rcases List.mem_append.1 hp with h | h
      · exact hdel p h
      · cases h
    · rcases hcase with ⟨hstep, hnt⟩ | ⟨m, hstep, hlt, hm⟩
      · intro p hp
        simp only [deliverLoop, hstep] at hp ⊢
        rcases List.mem_append.1 hp with h | h
        · exact hdel p h
        · exact hobfix p h
      · intro p hp
        simp only [deliverLoop, hstep] at hp ⊢
        refine ih { truck with time := m } (fixedBoard truck onboard) delivered
          ?_ ?_ p hp
        · intro q hq
          exact AddrProv_mono (le_of_lt hlt) (hobfix q hq)
        · intro q hq
          exact AddrProv_mono (le_of_lt hlt) (hdel q hq)
    · rcases hcase with ⟨hsel, hstep⟩ | ⟨sp, sd, hsel, hstep⟩
      · intro p hp
        simp only [deliverLoop, hstep] at hp ⊢
        rcases List.mem_append.1 hp with h | h
        · exact hdel p h
        · exact hobfix p h
      · rcases selectFrom_mem hsel with ⟨c, hc, hcp, hcd⟩
        rcases mkInfo_mem hc with ⟨hpe, hd2, _, _⟩
        have hspfix : sp ∈ fixedBoard truck onboard :=
          List.mem_of_mem_filter (hcp ▸ hpe)
        have hdnn : 0 ≤ sd := by
          rw [← hcd, hd2]
          exact dist_val_nonneg hM _ _
        have htt : truck.time ≤ truck.time + travelMinutes sd :=
          le_add_of_nonneg_right (travelMinutes_nonneg hdnn)
        intro p hp
        simp only [deliverLoop, hstep] at hp ⊢
        refine ih _ ((fixedBoard truck onboard).erase sp) _ ?_ ?_ p hp
        · intro q hq
          exact AddrProv_mono htt (hobfix q ((List.erase_sublist _ _).mem hq))
        · intro q hq
          rcases List.mem_append.1 hq with h1 | h1
          · exact AddrProv_mono htt (hdel q h1)
          · rcases List.mem_cons.1 h1 with rfl | h2
            · exact AddrProv_mono htt (hobfix sp hspfix)
            · cases h2

/-! ## C10 — only package 9's address mutates, only to the corrected
values, only once the clock reaches 10:20 -/

/-- C10: a status update writes only the status field (all address
fields survive), and after a wave every package record the engine
touched stems from a stored cargo package with identity, city, state and
original/corrected fields intact — its street/ZIP differ from ingestion
only for package 9, only to the fixed corrected values, and only with
the routing clock at or past 10:20.  (`display_address` is a pure view:
it returns a tuple and cannot write any field.) -/
theorem address_mutation_frame
    (A : List (List String)) (M : DistMatrix) (store : Nat → Option Package)
    (truck : Truck) (fuel : Nat) (hM : NonnegM M) :
    (∀ (p : Package) (q : ℚ),
      (statusApply p q).street = p.street ∧ (statusApply p q).city = p.city ∧
      (statusApply p q).state = p.state ∧ (statusApply p q).zip = p.zip ∧
      (statusApply p q)._orig_street = p._orig_street ∧
      (statusApply p q)._orig_zip = p._orig_zip ∧
      (statusApply p q)._corr_street = p._corr_street ∧
      (statusApply p q)._corr_zip = p._corr_zip) ∧
    (∀ p ∈ (deliver_run A M store truck fuel).delivered ++
        (deliver_run A M store truck fuel).leftover,
      ∃ pid ∈ truck.packages, ∃ p0, store pid = some p0 ∧
        p.ID = p0.ID ∧ p.city = p0.city ∧ p.state = p0.state ∧
        p._corr_street = p0._corr_street ∧ p._corr_zip = p0._corr_zip ∧
        (¬ (p.street = p0.street ∧ p.zip = p0.zip) →
          p.ID = 9 ∧ p.street = p0._corr_street ∧ p.zip = p0._corr_zip ∧
          ADDR_FIX_TIME ≤ (deliver_run A M store truck fuel).truck.time)) := by
  constructor
  · intro p q
    exact ⟨rfl, rfl, rfl, rfl, rfl, rfl, rfl, rfl⟩
  · have hinit : ∀ p ∈ initOnboard store truck,
        AddrProv store truck.packages truck.time p := by
      intro p hp
      unfold initOnboard at hp
      rcases List.mem_filterMap.1 hp with ⟨pid, hpid, hsome⟩
      cases hst : store pid with
      | none => rw [hst] at hsome; cases hsome
      | some p0 =>
        rw [hst] at hsome
        cases hdep : p0.departureTime with
        | some d0 =>
          simp only [hdep] at hsome
          cases hsome
          exact ⟨pid, hpid, p0, hst, rfl, rfl, rfl, rfl, rfl, rfl, rfl,
            Or.inl ⟨rfl, rfl⟩⟩
        | none =>
          simp only [hdep] at hsome
          cases hsome
          exact ⟨pid, hpid, p0, hst, rfl, rfl, rfl, rfl, rfl, rfl, rfl,
            Or.inl ⟨rfl, rfl⟩⟩
    intro p hp
    simp only [deliver_run] at hp ⊢
    have h := deliverLoop_addr A M hM store truck.packages fuel
      { truck with packages := [] } (initOnboard store truck) []
      hinit (fun q hq => absurd hq (List.not_mem_nil q)) p hp
    obtain ⟨pid, hpid, p0, hst, h1, h2, h3, h4, h5, h6, h7, h8⟩ := h
    refine ⟨pid, hpid, p0, hst, h1, h2, h3, h6, h7, ?_⟩
    intro hne
    rcases h8 with h8 | h8
    · exact absurd h8 hne
    · exact h8

/-- Number of gate thresholds still ahead of the clock. -/
def gatesPending (t : ℚ) : Nat :=
  (if t < DELAYED_TIME then 1 else 0) + (if t < ADDR_FIX_TIME then 1 else 0)

/-- Gate thresholds only get crossed as the clock advances. -/
lemma gatesPending_antitone {t t2 : ℚ} (h : t ≤ t2) :
    gatesPending t2 ≤ gatesPending t := by
  unfold gatesPending
  split_ifs <;> first | omega | (exfalso; linarith)

/-- At most two gate thresholds exist. -/
lemma gatesPending_le_two (t : ℚ) : gatesPending t ≤ 2 := by
  unfold gatesPending
  split_ifs <;> omega

/-- With every candidate score below the sentinel, selection succeeds. -/
lemma selectFrom_isSome {info : List Cand} (hne : info ≠ [])
    (hb : ∀ c ∈ info,
      c.arr + c.d + (c.p.ID : ℚ) * (1 / 1000000) < SENTINEL ∧
      c.d + (c.p.ID : ℚ) * (1 / 1000000) < SENTINEL) :
    ∃ pd, selectFrom info = some pd := by
  by_cases ho : (partition3 info).1 = []
  · by_cases hl : (partition3 info).2.1 = []
    · have hall : ∀ c ∈ info, c.dl = none := by
        intro c hc
        cases hdl : c.dl with
        | none => rfl
        | some v =>
          rcases le_or_lt c.arr v with hle | hlt
          · have hmem : (⟨c.p, c.d, c.arr, v⟩ : HCand) ∈ (partition3 info).1 := by
              rw [partition3_fst]
              exact List.mem_filterMap.2 ⟨c, hc, by simp only [hdl]; rw [if_pos hle]⟩
            rw [ho] at hmem
            cases hmem
          · have hmem : (⟨c.p, c.d, c.arr, v⟩ : HCand) ∈ (partition3 info).2.1 := by
              rw [partition3_late]
              exact List.mem_filterMap.2
                ⟨c, hc, by simp only [hdl]; rw [if_neg (not_le.2 hlt)]⟩
            rw [hl] at hmem
            cases hmem
      have heod : (partition3 info).2.2 = info := by
        rw [partition3_eod]
        apply List.filter_eq_self.2
        intro c hc
        simp [hall c hc]
      obtain ⟨c, hc, hsel⟩ := selEod_spec ((partition3 info).2.2)
        (by rw [heod]; exact hne)
        (by rw [heod]; intro c hc; exact (hb c hc).2)
      refine ⟨(c.p, c.d), ?_⟩
      simp only [selectFrom]
      rw [if_neg (by simp [ho]), if_neg (by simp [hl]), hsel]
    · obtain ⟨h, hh, hsel⟩ := selLate_mem _ hl
      refine ⟨(h.p, h.d), ?_⟩
      simp only [selectFrom]
      rw [if_neg (by simp [ho]), if_pos hl, hsel]
  · have hbscore : ∀ h ∈ (partition3 info).1, hscore h < SENTINEL := by
      intro h hh
      rcases ontime_entry_src hh with ⟨c, hc, hp, hd, harr, _, _⟩
      have h1 := (hb c hc).1
      rw [hp, hd, harr] at h1
      exact lt_of_le_of_lt (hscore_le h) h1
    obtain ⟨h, hh, hsel, _⟩ := selOntime_spec _ ho hbscore
    refine ⟨(h.p, h.d), ?_⟩
    simp only [selectFrom]
    rw [if_pos ho, hsel]

/-- Source of an instantiated onboard record. -/
lemma initOnboard_src (store : Nat → Option Package) (truck : Truck) :
    ∀ p ∈ initOnboard store truck,
      ∃ pid ∈ truck.packages, ∃ p0, store pid = some p0 ∧ p.ID = p0.ID := by
  intro p hp
  unfold initOnboard at hp
  rcases List.mem_filterMap.1 hp with ⟨pid, hpid, hsome⟩
  cases hst : store pid with
  | none => rw [hst] at hsome; cases hsome
  | some p0 =>
    rw [hst] at hsome
    cases hdep : p0.departureTime with
    | some d0 =>
      simp only [hdep] at hsome
      cases hsome
      exact ⟨pid, hpid, p0, hst, rfl⟩
    | none =>
      simp only [hdep] at hsome
      cases hsome
      exact ⟨pid, hpid, p0, hst, rfl⟩

/-- Under a bounded matrix, bounded cargo ids and a bounded clock, the
loop completes within `2·|onboard| + gatesPending + 1` iterations: each
iteration either delivers a package or strictly advances the clock to a
yet-uncrossed gate threshold, the graceful halt being unreachable for a
non-empty onboard set. -/
lemma deliverLoop_completes (A : List (List String)) (M : DistMatrix)
    (hM : BoundedM M) :
    ∀ (fuel : Nat) (truck : Truck) (onboard delivered : List Package),
      (∀ p ∈ onboard, (p.ID : ℚ) ≤ 1000000) →
      onboard.length ≤ 16 →
      truck.time ≤ 100000000 - (onboard.length : ℚ) * 4000000 →
      2 * onboard.length + gatesPending truck.time + 1 ≤ fuel →
      (deliverLoop A M fuel truck onboard delivered).outcome = .completed := by
  intro fuel
  induction fuel with
  | zero =>
    intro truck onboard delivered _ _ _ hfuel
    omega
  | succ fuel ih =>
    intro truck onboard delivered hID hlen htime hfuel
    have hIDfix : ∀ p ∈ fixedBoard truck onboard, (p.ID : ℚ) ≤ 1000000 := by
      intro p hp
      rcases List.mem_map.1 hp with ⟨q, hq, he⟩
      rw [← he, (addr_fix_frame q truck.time).1]
      exact hID q hq
    have hlenfix : (fixedBoard truck onboard).length = onboard.length :=
      List.length_map _ _
    rcases deliverStep_spec A M truck onboard delivered with
      ⟨hob0, hstep⟩ | ⟨hob0, helig, hcase⟩ | ⟨hob0, helig, hcase⟩
    · simp only [deliverLoop, hstep]
    · rcases hcase with ⟨hstep, hnt⟩ | ⟨m, hstep, hlt, hm⟩
      · exfalso
        have hfb : fixedBoard truck onboard ≠ [] := by
          unfold fixedBoard
          simpa using hob0
        obtain ⟨p, hp⟩ := List.exists_mem_of_ne_nil _ hfb
        have hinel : eligible_now p truck.time = false := by
          have := List.filter_eq_nil_iff.1 helig p hp
          simpa using this
        have hnil := (nextTimes_eq_nil_iff truck (fixedBoard truck onboard)).1 hnt
        rcases not_eligible_now hinel with ⟨h9, hlt9⟩ | ⟨hdel, hltd⟩
        · exact hnil.2 ⟨hlt9, List.any_eq_true.2 ⟨p, hp, by simp [h9]⟩⟩
        · exact hnil.1 ⟨hltd, List.any_eq_true.2 ⟨p, hp, hdel⟩⟩
      · have hm620 : m ≤ 620 := by
          rcases hm with rfl | rfl <;> norm_num [DELAYED_TIME, ADDR_FIX_TIME]
        have hcast : (onboard.length : ℚ) ≤ 16 := by
          exact_mod_cast hlen
        have hgp : gatesPending m < gatesPending truck.time := by
          rcases hm with rfl | rfl
          · have ht1 : truck.time < DELAYED_TIME := hlt
            have ht2 : truck.time < ADDR_FIX_TIME := by
              have : DELAYED_TIME < ADDR_FIX_TIME := by
                norm_num [DELAYED_TIME, ADDR_FIX_TIME]
              linarith
            unfold gatesPending
            rw [if_pos ht1, if_pos ht2, if_neg (lt_irrefl _)]
            split_ifs <;> omega
          · have ht2 : truck.time < ADDR_FIX_TIME := hlt
            unfold gatesPending
            rw [if_pos ht2, if_neg (lt_irrefl _)]
            have : ¬ ADDR_FIX_TIME < DELAYED_TIME := by
              norm_num [DELAYED_TIME, ADDR_FIX_TIME]
            rw [if_neg this]
            split_ifs <;> omega
        simp only [deliverLoop, hstep]
        refine ih { truck with time := m } (fixedBoard truck onboard) delivered
          hIDfix (by rw [hlenfix]; exact hlen) ?_ ?_
        · rw [hlenfix]
          show m ≤ _
          linarith
        · rw [hlenfix]
          show 2 * onboard.length + gatesPending m + 1 ≤ fuel
          omega
    · have hne : mkInfo A M truck (eligOf truck onboard) ≠ [] := by
        unfold mkInfo
        simpa using helig
      have htlow : truck.time ≤ 100000000 := by
        have h0 : (0 : ℚ) ≤ (onboard.length : ℚ) * 4000000 := by positivity
        linarith
      have hb : ∀ c ∈ mkInfo A M truck (eligOf truck onboard),
          c.arr + c.d + (c.p.ID : ℚ) * (1 / 1000000) < SENTINEL ∧
          c.d + (c.p.ID : ℚ) * (1 / 1000000) < SENTINEL := by
        intro c hc
        rcases mkInfo_mem hc with ⟨hpe, hd2, harr, _⟩
        have hdb := dist_val_bounds hM (some (address_idx A truck.currentLocation))
          (some (address_idx A c.p.street))
        rw [← hd2] at hdb
        have hid : (c.p.ID : ℚ) ≤ 1000000 :=
          hIDfix c.p (List.mem_of_mem_filter hpe)
        have htr : travelMinutes c.d ≤ 4000000 := by
          unfold travelMinutes TRUCK_SPEED
          linarith
        have hidnn : (0 : ℚ) ≤ (c.p.ID : ℚ) := Nat.cast_nonneg _
        constructor
        · rw [harr]
          unfold SENTINEL
          nlinarith
        · unfold SENTINEL
          nlinarith
      rcases hcase with ⟨hsel, hstep⟩ | ⟨sp, sd, hsel, hstep⟩
      · obtain ⟨pd, hpd⟩ := selectFrom_isSome hne hb
        rw [hsel] at hpd
        cases hpd
      · rcases selectFrom_mem hsel with ⟨c, hc, hcp, hcd⟩
        rcases mkInfo_mem hc with ⟨hpe, hd2, _, _⟩
        have hspfix : sp ∈ fixedBoard truck onboard :=
          List.mem_of_mem_filter (hcp ▸ hpe)
        have hdb := dist_val_bounds hM (some (address_idx A truck.currentLocation))
          (some (address_idx A c.p.street))
        rw [← hd2, hcd] at hdb
        have hone : 1 ≤ onboard.length := by
          rcases onboard with _ | ⟨q, l⟩
          · exact absurd rfl hob0
          · simp
        have hlerase : ((fixedBoard truck onboard).erase sp).length =
            onboard.length - 1 := by
          rw [List.length_erase_of_mem hspfix, hlenfix]
        have htr : travelMinutes sd ≤ 4000000 := by
          unfold travelMinutes TRUCK_SPEED
          linarith [hdb.2]
        have htnn : 0 ≤ travelMinutes sd := travelMinutes_nonneg hdb.1
        have hgp : gatesPending (truck.time + travelMinutes sd) ≤
            gatesPending truck.time :=
          gatesPending_antitone (le_add_of_nonneg_right htnn)
        simp only [deliverLoop, hstep]
        refine ih _ ((fixedBoard truck onboard).erase sp) _ ?_ ?_ ?_ ?_
        · intro q hq
          exact hIDfix q ((List.erase_sublist _ _).mem hq)
        · rw [hlerase]
          omega
        · rw [hlerase]
          have hcast : ((onboard.length - 1 : Nat) : ℚ) =
              (onboard.length : ℚ) - 1 := by
            push_cast [hone]
            ring
          rw [hcast]
          show truck.time + travelMinutes sd ≤ _
          linarith
        · rw [hlerase]
          show 2 * (onboard.length - 1) +
            gatesPending (truck.time + travelMinutes sd) + 1 ≤ fuel
          omega

/-! ## C5 — the routing loop terminates -/

/-- C5: over a bounded distance matrix, bounded package ids, a capacity
manifest and a bounded wave start, a wave always completes within
`2·|cargo| + 3` iterations: every iteration either delivers one package
or strictly advances the clock to one of the two finitely many future
gate thresholds, and the graceful-halt branch is unreachable with a
non-empty onboard set (it would require a gated package with no future
gate). -/
theorem deliver_run_terminates
    (A : List (List String)) (M : DistMatrix) (store : Nat → Option Package)
    (truck : Truck)
    (hM : BoundedM M)
    (hid : ∀ pid p, store pid = some p → (p.ID : ℚ) ≤ 1000000)
    (hcap : truck.packages.length ≤ TRUCK_CAP)
    (htime : truck.time ≤ 1000000) :
    (deliver_run A M store truck
      (2 * truck.packages.length + 3)).outcome = .completed := by
  simp only [deliver_run]
  have hlen : (initOnboard store truck).length ≤ 16 := by
    have h1 : (initOnboard store truck).length ≤ truck.packages.length :=
      List.length_filterMap_le _ _
    have h2 : TRUCK_CAP = 16 := rfl
    omega
  refine deliverLoop_completes A M hM _ { truck with packages := [] }
    (initOnboard store truck) [] ?_ hlen ?_ ?_
  · intro p hp
    rcases initOnboard_src store truck p hp with ⟨pid, _, p0, hst, hpid⟩
    rw [hpid]
    exact hid pid p0 hst
  · have hcast : ((initOnboard store truck).length : ℚ) ≤ 16 := by
      exact_mod_cast hlen
    simp only
    linarith
  · have h1 : (initOnboard store truck).length ≤ truck.packages.length :=
      List.length_filterMap_le _ _
    have h2 := gatesPending_le_two truck.time
    simp only
    omega

/-! ## A concrete one-package wave, for the loop-theorem witnesses -/

/-- A stored package: id 1, unconstrained deadline, no delay note. -/
def wP0 : Package :=
  { ID := 1, street := "hub", city := "c", state := "s", zip := "z",
    deadline := "EOD", weight := "1", notes := "",
    _orig_street := "hub", _orig_zip := "z",
    _corr_street := "hub", _corr_zip := "z" }

/-- A store holding exactly package 1. -/
def wStore : Nat → Option Package := fun pid => if pid = 1 then some wP0 else none

/-- A one-by-one distance matrix with a zero diagonal. -/
def wM : DistMatrix := [[some 0]]

/-- A truck departing the hub at 08:00 with package 1 as cargo. -/
def wTruck : Truck := Truck.make "T1" 18 "hub" 480 [1]

/-- Package 1 as instantiated onto the truck (departure stamped 08:00). -/
def wP1 : Package := { wP0 with truck := some "T1", departureTime := some 480 }

/-- Package 1 as delivered (zero travel, so delivered at 08:00). -/
def wP2 : Package := { wP1 with deliveryTime := some 480, status := .delivered }

lemma wnodelay : is_delayed wP1 = false := by decide

lemma weod : parse_deadline "EOD" = none := by decide

lemma waddr : address_idx [] "hub" = 0 := rfl

lemma wM_nonneg : NonnegM wM := by
  intro row hrow cell hcell
  simp only [wM, List.mem_singleton] at hrow
  subst hrow
  simp only [List.mem_singleton] at hcell
  subst hcell
  norm_num

lemma winit : initOnboard wStore wTruck = [wP1] := by
  simp only [initOnboard, wStore, wTruck, Truck.make, List.filterMap]
  norm_num [wP0, is_delayed, DELAYED_TIME, wP1, strContains, substrIn, py_lower]

lemma wstep1 : deliverStep [] wM ⟨"T1", 18, "hub", 480, 480, 0, []⟩ [wP1] [] =
    Sum.inr (⟨"T1", 18, "hub", 480, 480, 0, [1]⟩, [], [wP2]) := by
  have hfix : apply_addr_fix_if_due wP1 480 = wP1 := by
    simp [apply_addr_fix_if_due, wP1, wP0]
  have helig : eligible_now wP1 480 = true := by
    simp only [eligible_now, wnodelay]
    norm_num [ADDR_FIX_TIME, DELAYED_TIME, show wP1.ID = 1 from rfl]
  simp only [deliverStep, fixedBoard, eligOf, List.map, List.filter, hfix, helig,
    List.isEmpty, mkInfo, dist_val, dist_between, wM, waddr]
  norm_num [selectFrom, partition3, selOntime, selLate, selEod, weod, waddr,
    SENTINEL, travelMinutes, TRUCK_SPEED, List.erase, wP1, wP0, wP2]

lemma wstep2 (t : Truck) (del : List Package) :
    deliverStep [] wM t [] del = Sum.inl ⟨t, del, [], .completed⟩ := rfl

/-- The one-package wave, fully evaluated: the package is delivered at
08:00 sharp and the wave completes. -/
lemma wrun :
    deliver_run [] wM wStore wTruck 5 =
      ⟨⟨"T1", 18, "hub", 480, 480, 0, [1]⟩, [wP2], [], .completed⟩ := by
  rw [deliver_run, winit]
  show deliverLoop [] wM (4 + 1) ⟨"T1", 18, "hub", 480, 480, 0, []⟩ [wP1] [] = _
  rw [deliverLoop, wstep1]
  show deliverLoop [] wM (3 + 1) ⟨"T1", 18, "hub", 480, 480, 0, [1]⟩ [] [wP2] = _
  rw [deliverLoop, wstep2]

/-- Witness for the C1 theorem at the concrete one-package wave. -/
theorem delivered_timestamps_gated_witness :
    (NonnegM wM ∧
      (∀ pid p, wStore pid = some p → p.departureTime = none) ∧
      wTruck.departTime ≤ wTruck.time) ∧
    ∀ p ∈ (deliver_run [] wM wStore wTruck 5).delivered,
      ∃ dep dt, p.departureTime = some dep ∧ p.deliveryTime = some dt ∧
        wTruck.departTime ≤ dep ∧ dep ≤ dt ∧
        (is_delayed p = true → DELAYED_TIME ≤ dep) ∧
        (p.ID = 9 → ADDR_FIX_TIME ≤ dt) := by
  have hfresh : ∀ pid p, wStore pid = some p → p.departureTime = none := by
    intro pid p hp
    simp only [wStore] at hp
    split_ifs at hp
    cases hp
    rfl
  have hdt : wTruck.departTime ≤ wTruck.time := le_refl _
  exact ⟨⟨wM_nonneg, hfresh, hdt⟩,
    delivered_timestamps_gated [] wM wStore wTruck 5 wM_nonneg hfresh hdt⟩

/-- Witness for the C5 theorem at the concrete one-package wave. -/
theorem deliver_run_terminates_witness :
    (BoundedM wM ∧ wTruck.packages.length ≤ TRUCK_CAP ∧
      wTruck.time ≤ 1000000) ∧
    (deliver_run [] wM wStore wTruck
      (2 * wTruck.packages.length + 3)).outcome = .completed := by
  have hB : BoundedM wM := by
    intro row hrow cell hcell
    simp only [wM, List.mem_singleton] at hrow
    subst hrow
    simp only [List.mem_singleton] at hcell
    subst hcell
    norm_num
  have hid : ∀ pid p, wStore pid = some p → (p.ID : ℚ) ≤ 1000000 := by
    intro pid p hp
    simp only [wStore] at hp
    split_ifs at hp
    cases hp
    norm_num [wP0]
  have hcap : wTruck.packages.length ≤ TRUCK_CAP := by
    norm_num [wTruck, Truck.make, TRUCK_CAP]
  have htime : wTruck.time ≤ (1000000 : ℚ) := by
    norm_num [wTruck, Truck.make]
  exact ⟨⟨hB, hcap, htime⟩,
    deliver_run_terminates [] wM wStore wTruck hB hid hcap htime⟩

/-- Witness for the C7 theorem at the concrete one-package wave. -/
theorem cargo_delivered_exactly_once_witness :
    ((∀ pid p, wStore pid = some p → p.ID = pid) ∧ wTruck.packages.Nodup ∧
      (deliver_run [] wM wStore wTruck 5).outcome = .completed) ∧
    (∀ pid ∈ wTruck.packages, (wStore pid).isSome = true →
      (deliver_run [] wM wStore wTruck 5).truck.packages.count pid = 1) ∧
    (∀ pid ∈ (deliver_run [] wM wStore wTruck 5).truck.packages,
      pid ∈ wTruck.packages) ∧
    (∀ p ∈ (deliver_run [] wM wStore wTruck 5).delivered,
      p.deliveryTime.isSome = true) := by
  have hcoh : ∀ pid p, wStore pid = some p → p.ID = pid := by
    intro pid p hp
    simp only [wStore] at hp
    split_ifs at hp with h
    cases hp
    rw [h]
    rfl
  have hnd : wTruck.packages.Nodup := by decide
  have hc : (deliver_run [] wM wStore wTruck 5).outcome = .completed := by
    rw [wrun]
  have h := cargo_delivered_exactly_once [] wM wStore wTruck 5 hcoh hnd hc
  exact ⟨⟨hcoh, hnd, hc⟩, h.1, h.2.1, h.2.2.1⟩

/-- Witness for the C10 theorem at the concrete one-package wave. -/
theorem address_mutation_frame_witness :
    NonnegM wM ∧
    ((∀ (p : Package) (q : ℚ),
      (statusApply p q).street = p.street ∧ (statusApply p q).city = p.city ∧
      (statusApply p q).state = p.state ∧ (statusApply p q).zip = p.zip ∧
      (statusApply p q)._orig_street = p._orig_street ∧
      (statusApply p q)._orig_zip = p._orig_zip ∧
      (statusApply p q)._corr_street = p._corr_street ∧
      (statusApply p q)._corr_zip = p._corr_zip) ∧
    (∀ p ∈ (deliver_run [] wM wStore wTruck 5).delivered ++
        (deliver_run [] wM wStore wTruck 5).leftover,
      ∃ pid ∈ wTruck.packages, ∃ p0, wStore pid = some p0 ∧
        p.ID = p0.ID ∧ p.city = p0.city ∧ p.state = p0.state ∧
        p._corr_street = p0._corr_street ∧ p._corr_zip = p0._corr_zip ∧
        (¬ (p.street = p0.street ∧ p.zip = p0.zip) →
          p.ID = 9 ∧ p.street = p0._corr_street ∧ p.zip = p0._corr_zip ∧
          ADDR_FIX_TIME ≤ (deliver_run [] wM wStore wTruck 5).truck.time))) :=
  ⟨wM_nonneg, address_mutation_frame [] wM wStore wTruck 5 wM_nonneg⟩

end WGUPS
